import Mathlib

/-!
Shallow embedding of `magenta/models/music_vae/js/data.ts` and proofs about its
encode/decode behaviour.

The source converts between quantized `NoteSequence` objects and the tensors
used by MusicVAE.  Note events carry integer `pitch`, `quantizedStartStep`
(inclusive) and `quantizedEndStep` (exclusive); they are modelled with `Int`
fields, matching JavaScript integer-valued numbers.  Tensors are modelled as
`List Int` (rank 1) and `List (List Int)` (rank 2, row major).  The
`dl.buffer(...).set` writes of the source go to a backing typed array that
silently ignores out-of-range indices, so the embedded writes are no-ops
outside the buffer.  Thrown `Error`s are modelled with `Except String`,
carrying the exact message strings of the source.
-/

/-- Embedding of a quantized note event (a `NoteSequence.Note`): integer
`pitch`, inclusive `quantizedStartStep` and exclusive `quantizedEndStep`. -/
structure Note where
  pitch : Int
  quantizedStartStep : Int
  quantizedEndStep : Int
  deriving DecidableEq, Repr

/-- Embedding of a write `buf.set(v, i)` to a one-dimensional `dl.buffer`:
the backing typed array ignores out-of-range indices, so the write is a no-op
unless `0 ≤ i < xs.length` (`List.set` already ignores too-large indices). -/
def buf1Set (xs : List Int) (i : Int) (v : Int) : List Int :=
  if 0 ≤ i then xs.set i.toNat v else xs

/-- Embedding of the `NOTE_OFF` label constant of `MelodyConverter` (line 240). -/
def NOTE_OFF : Int := 1

/-- Embedding of the `FIRST_PITCH` label constant of `MelodyConverter` (line 241). -/
def FIRST_PITCH : Int := 2

/-- Embedding of the state of a `MelodyConverter` (lines 233-250): `numSteps`
and the inclusive pitch bounds.  (`numSegments` is carried by the source but
unused by `toTensor`/`toNoteSequence`, so it is omitted.) -/
structure MelodyConverter where
  numSteps : Nat
  minPitch : Int
  maxPitch : Int
  deriving DecidableEq, Repr

/-- Embedding of `this.depth = args.maxPitch - args.minPitch + 3` (line 249). -/
def MelodyConverter.depth (c : MelodyConverter) : Int :=
  c.maxPitch - c.minPitch + 3

/-- Comparator of the sort on line 253-254, `n1.quantizedStartStep -
n2.quantizedStartStep`, as a boolean "less or equal" relation. -/
def melodySortLe (n1 n2 : Note) : Bool :=
  decide (n1.quantizedStartStep ≤ n2.quantizedStartStep)

/-- Embedding of `noteSequence.notes.sort((n1, n2) => n1.quantizedStartStep -
n2.quantizedStartStep)` (lines 253-254).  JavaScript `Array.prototype.sort`
sorts the caller's array in place (stably) and returns that same array, so
this list is both the list `toTensor` walks and the contents of the caller's
`notes` collection after `toTensor` returns or throws. -/
def sortByStartStep (notes : List Note) : List Note :=
  notes.mergeSort melodySortLe

/-- Embedding of the note-writing loop of `MelodyConverter.toTensor`
(lines 256-268): walk the sorted notes keeping `lastEnd` (initially `-1`),
throw on a monophony or pitch-range violation, otherwise write the note-on
label at the start step and the `NOTE_OFF` label at the end step into the
rank-1 buffer `mel`. -/
def melWriteNotes (c : MelodyConverter) : List Note → List Int → Int → Except String (List Int)
  | [], mel, _ => .ok mel
  | n :: rest, mel, lastEnd =>
    if n.quantizedStartStep < lastEnd then
      .error "`NoteSequence` is not monophonic."
    else if n.pitch < c.minPitch ∨ n.pitch > c.maxPitch then
      .error ("`NoteSequence` has a pitch outside of the valid range: " ++ toString n.pitch)
    else
      melWriteNotes c rest
        (buf1Set (buf1Set mel n.quantizedStartStep (n.pitch - c.minPitch + FIRST_PITCH))
          n.quantizedEndStep NOTE_OFF)
        n.quantizedEndStep

/-- Embedding of `dl.oneHot(labels, depth)` on a single label: a row of
length `depth` with a one at position `label` when `0 ≤ label < depth`, and
all zeros for an out-of-range label. -/
def oneHotRow (d : Nat) (l : Int) : List Int :=
  (List.range d).map (fun (j : Nat) => if (j : Int) = l then 1 else 0)

/-- Embedding of `MelodyConverter.toTensor` (lines 252-271): sort the notes
(in place), scan them into the rank-1 label buffer of length `numSteps`
initialized to zeros with `lastEnd = -1`, then one-hot expand each label to
width `depth`. -/
def MelodyConverter.toTensor (c : MelodyConverter) (notes : List Note) :
    Except String (List (List Int)) :=
  (melWriteNotes c (sortByStartStep notes) (List.replicate c.numSteps 0) (-1)).map
    (fun mel => mel.map (oneHotRow c.depth.toNat))

/-- Helper for `argMax1`: fold over the remaining entries keeping the index of
the first maximum seen so far (`deeplearn`'s `argMax` returns the first index
attaining the maximum). -/
def argMaxAux : List Int → Nat → Nat → Int → Nat
  | [], _, bi, _ => bi
  | v :: rest, i, bi, bv =>
    if bv < v then argMaxAux rest (i + 1) i v else argMaxAux rest (i + 1) bi bv

/-- Embedding of `tensor.argMax(1)` on a single row: the index of the first
occurrence of the maximum (0 for an empty row, which has no declared shape). -/
def argMax1 (xs : List Int) : Int :=
  match xs with
  | [] => 0
  | v :: rest => (argMaxAux rest 1 0 v : Nat)

/-- One step of the label scan of `MelodyConverter.toNoteSequence`
(lines 279-300).  The state is the current step index, the currently open
note as a `(pitch, startStep)` pair (`currNote`), and the notes emitted so
far.  Label `0` is a no-op, `NOTE_OFF` closes an open note at the current
step, and any other label closes an open note at the current step and opens
a new note with pitch `label - FIRST_PITCH + minPitch`. -/
def melDecodeStep (c : MelodyConverter) (st : Nat × Option (Int × Int) × List Note)
    (label : Int) : Nat × Option (Int × Int) × List Note :=
  match st with
  | (s, curr, ns) =>
    if label = 0 then (s + 1, curr, ns)
    else if label = NOTE_OFF then
      match curr with
      | some pst => (s + 1, none, ns ++ [⟨pst.1, pst.2, (s : Int)⟩])
      | none => (s + 1, none, ns)
    else
      match curr with
      | some pst =>
        (s + 1, some (label - FIRST_PITCH + c.minPitch, (s : Int)), ns ++ [⟨pst.1, pst.2, (s : Int)⟩])
      | none => (s + 1, some (label - FIRST_PITCH + c.minPitch, (s : Int)), ns)

/-- Embedding of `MelodyConverter.toNoteSequence` (lines 273-306): take the
arg-max label of every row, scan the labels left to right, and finally close
a still-open note at `labels.length`.  The asynchronous tensor read of the
source is a single awaited fetch of the whole buffer, so the function is
modelled as the value it resolves to. -/
def MelodyConverter.toNoteSequence (c : MelodyConverter) (oh : List (List Int)) : List Note :=
  let labels := oh.map argMax1
  match labels.foldl (melDecodeStep c) (0, none, []) with
  | (_, some pst, ns) => ns ++ [⟨pst.1, pst.2, (labels.length : Int)⟩]
  | (_, none, ns) => ns

/-- Embedding of `DEFAULT_DRUM_PITCH_CLASSES` (lines 22-41). -/
def DEFAULT_DRUM_PITCH_CLASSES : List (List Int) :=
  [[36, 35],
   [38, 27, 28, 31, 32, 33, 34, 37, 39, 40, 56, 65, 66, 75, 85],
   [42, 44, 54, 68, 69, 70, 71, 73, 78, 80],
   [46, 67, 72, 74, 79, 81],
   [45, 29, 41, 61, 64, 84],
   [48, 47, 60, 63, 77, 86, 87],
   [50, 30, 43, 62, 76, 83],
   [49, 55, 57, 58],
   [51, 52, 53, 59, 82]]

/-- Embedding of the state of a `DrumsConverter` (lines 117-134): `numSteps`
and the pitch-class table (the constructor substitutes
`DEFAULT_DRUM_PITCH_CLASSES` when none is given; `numSegments` is unused by
the conversion methods and omitted). -/
structure DrumsConverter where
  numSteps : Nat
  pitchClasses : List (List Int)
  deriving DecidableEq, Repr

/-- Embedding of the `pitchToClass` map built by the `DrumsConverter`
constructor (lines 130-133): classes are visited in order and every pitch of
a class is assigned that class index, later assignments overwriting earlier
ones, so a pitch maps to the last class containing it; a pitch registered in
no class maps to `none` (the JavaScript lookup yields `undefined`, without
throwing). -/
def pitchToClass (classes : List (List Int)) (p : Int) : Option Nat :=
  ((classes.enum.filter (fun ic => ic.2.contains p)).getLast?).map (fun ic => ic.1)

/-- In-place update of entry `i` of a list; entries out of range are left
untouched (a typed-array write outside the buffer is a silent no-op). -/
def listModify {α : Type} (f : α → α) : Nat → List α → List α
  | _, [] => []
  | 0, a :: as => f a :: as
  | n + 1, a :: as => a :: listModify f n as

/-- Embedding of a write to row `i` of a rank-2 `dl.buffer`, for an integer
row index: rows out of `[0, rows.length)` are untouched. -/
def setRow (rows : List (List Int)) (i : Int) (f : List Int → List Int) : List (List Int) :=
  if 0 ≤ i then listModify f i.toNat rows else rows

/-- Embedding of `DrumsConverter.toTensor` (lines 136-147).  The buffer has
shape `[numSteps, classCount + 1]`; the initialization loop sets the final
column of every row to 1 (the writes `drumRoll.set(v, step, -1)` target the
final column, the documented "Set final values to 1" of line 138 and of the
class doc comment on lines 93-95).  Each note sets cell
`(startStep, pitchToClass[pitch])` to 1 and the final column of its row to 0.
For a pitch missing from `pitchToClass` the class-cell write has an
`undefined` column index and is dropped by the buffer (no error is thrown),
while the final-column write of that row still happens. -/
def drumStep (dc : DrumsConverter) (rows : List (List Int)) (note : Note) : List (List Int) :=
  let rows2 :=
    match pitchToClass dc.pitchClasses note.pitch with
    | some cIdx => setRow rows note.quantizedStartStep (fun row => row.set cIdx 1)
    | none => rows
  setRow rows2 note.quantizedStartStep (fun row => row.set dc.pitchClasses.length 0)

def DrumsConverter.toTensor (dc : DrumsConverter) (notes : List Note) : List (List Int) :=
  notes.foldl (drumStep dc)
    (List.replicate dc.numSteps (List.replicate dc.pitchClasses.length 0 ++ [1]))

/-- Embedding of the inner column loop of `DrumRollConverter.toNoteSequence`
(lines 189-197) on one row starting at column `p`: every truthy (nonzero)
cell emits a note with the first pitch of its class and unit duration.  The
source reads `this.pitchClasses[p][0]`; when `p` is not a valid class index
the element access on `undefined` throws a `TypeError`, modelled as an
error. -/
def drumRowNotes (classes : List (List Int)) (s : Nat) : List Int → Nat → Except String (List Note)
  | [], _ => .ok []
  | v :: rest, p =>
    if v = 0 then drumRowNotes classes s rest (p + 1)
    else
      match classes[p]? with
      | none => .error "TypeError: Cannot read property '0' of undefined"
      | some cls =>
        (drumRowNotes classes s rest (p + 1)).map
          (fun ns => ⟨cls.headD 0, (s : Int), (s : Int) + 1⟩ :: ns)

/-- Embedding of the outer step loop of `DrumRollConverter.toNoteSequence`
(lines 183-200): each row of the input tensor is fetched and scanned in
order, and the emitted notes are concatenated in step order. -/
def drumRollSteps (classes : List (List Int)) : List (List Int) → Nat → Except String (List Note)
  | [], _ => .ok []
  | row :: rest, s => do
    let ns ← drumRowNotes classes s row 0
    let ms ← drumRollSteps classes rest (s + 1)
    return ns ++ ms

/-- Embedding of `DrumRollConverter.toNoteSequence` (lines 182-201), the raw
drum-roll decode: it inherits the `DrumsConverter` state and scans every
column of every row of the given tensor. -/
def DrumRollConverter.toNoteSequence (dc : DrumsConverter) (roll : List (List Int)) :
    Except String (List Note) :=
  drumRollSteps dc.pitchClasses roll 0

/-- Acceptance predicate of the monophony scan of `MelodyConverter.toTensor`:
starting from `lastEnd` (initially the sentinel `-1`), every note starts no
earlier than the previous note's end step. -/
def monoOKb (lastEnd : Int) : List Note → Bool
  | [] => true
  | n :: rest => decide (lastEnd ≤ n.quantizedStartStep) && monoOKb n.quantizedEndStep rest

/-- Pointwise description of the label buffer built by the note-writing loop
of `MelodyConverter.toTensor` over a sorted, monophonic, positive-duration
note list: a position holds the note-on label of the note starting there,
otherwise `NOTE_OFF` where some note ends, otherwise `0`. -/
def labelFn (c : MelodyConverter) (notes : List Note) (j : Nat) : Int :=
  match notes.find? (fun n => n.quantizedStartStep == (j : Int)) with
  | some n => n.pitch - c.minPitch + FIRST_PITCH
  | none =>
    if notes.any (fun n => n.quantizedEndStep == (j : Int)) then NOTE_OFF else 0

/-- Label segment of positions `[pos, N)` described by `labelFn`. -/
def labelSeg (c : MelodyConverter) (notes : List Note) (pos N : Nat) : List Int :=
  (List.range' pos (N - pos)).map (fun j => labelFn c notes j)

/-! ### Basic buffer lemmas -/

theorem length_buf1Set (xs : List Int) (i v : Int) : (buf1Set xs i v).length = xs.length := by
  unfold buf1Set
  split <;> simp

theorem getElem?_buf1Set (xs : List Int) (i v : Int) (j : Nat) :
    (buf1Set xs i v)[j]? = if i = (j : Int) ∧ j < xs.length then some v else xs[j]? := by
  unfold buf1Set
  split_ifs with h0 h1 h1
  · rw [List.getElem?_set]
    have ht : i.toNat = j := by omega
    simp [ht, h1.2]
  · rw [List.getElem?_set]
    by_cases ht : i.toNat = j
    · have hij : i = (j : Int) := by omega
      have hlen : ¬ j < xs.length := fun hh => h1 ⟨hij, hh⟩
      simp only [ht, if_pos rfl, if_neg hlen]
      exact (List.getElem?_eq_none (by omega)).symm
    · simp [ht]
  · exfalso
    omega
  · rfl

theorem length_listModify {α : Type} (f : α → α) (n : Nat) (l : List α) :
    (listModify f n l).length = l.length := by
  induction l generalizing n with
  | nil => cases n <;> rfl
  | cons a as ih =>
    cases n with
    | zero => simp [listModify]
    | succ m => simp [listModify, ih]

theorem getElem?_listModify {α : Type} (f : α → α) (n : Nat) (l : List α) (j : Nat) :
    (listModify f n l)[j]? = if n = j then (l[j]?).map f else l[j]? := by
  induction l generalizing n j with
  | nil => simp [listModify]
  | cons a as ih =>
    cases n with
    | zero =>
      cases j with
      | zero => simp [listModify]
      | succ jj => simp [listModify]
    | succ m =>
      cases j with
      | zero => simp [listModify]
      | succ jj => simpa [listModify] using ih m jj

/-! ### Lemmas about argMax1 and oneHotRow -/

theorem argMaxAux_of_le (rest : List Int) (i bi : Nat) (bv : Int)
    (h : ∀ v ∈ rest, v ≤ bv) : argMaxAux rest i bi bv = bi := by
  induction rest generalizing i with
  | nil => rfl
  | cons v vs ih =>
    have hv : v ≤ bv := h v (by simp)
    simp only [argMaxAux, if_neg (by omega : ¬ bv < v)]
    exact ih (i + 1) (fun w hw => h w (by simp [hw]))

theorem argMaxAux_repl (k : Nat) (zs : List Int) (i bi : Nat)
    (hz : ∀ v ∈ zs, v ≤ 1) :
    argMaxAux (List.replicate k 0 ++ 1 :: zs) i bi 0 = i + k := by
  induction k generalizing i with
  | zero =>
    simp only [List.replicate, List.nil_append, argMaxAux,
      if_pos (by omega : (0 : Int) < 1)]
    rw [argMaxAux_of_le zs (i + 1) i 1 hz]
    omega
  | succ m ih =>
    rw [List.replicate_succ, List.cons_append]
    simp only [argMaxAux]
    rw [if_neg (by omega : ¬ (0 : Int) < 0), ih (i + 1)]
    omega

theorem map_indicator_range' (l : Int) (s k : Nat)
    (h : ∀ j : Nat, s ≤ j → j < s + k → (j : Int) ≠ l) :
    (List.range' s k).map (fun (j : Nat) => if (j : Int) = l then (1 : Int) else 0) =
      List.replicate k 0 := by
  induction k generalizing s with
  | zero => rfl
  | succ m ih =>
    rw [List.range'_succ]
    simp only [List.map_cons, if_neg (h s le_rfl (by omega)), List.replicate_succ]
    rw [ih (s + 1) (fun j hj1 hj2 => h j (by omega) (by omega))]

theorem oneHotRow_eq (d : Nat) (l : Int) (h0 : 0 ≤ l) (hd : l < (d : Int)) :
    oneHotRow d l =
      List.replicate l.toNat 0 ++ 1 :: List.replicate (d - l.toNat - 1) 0 := by
  unfold oneHotRow
  have ha : l.toNat < d := by omega
  have h1 : d - l.toNat + l.toNat = d := Nat.sub_add_cancel (le_of_lt ha)
  have h2 := List.range'_append 0 l.toNat (d - l.toNat) 1
  rw [Nat.zero_add, Nat.one_mul, h1] at h2
  rw [List.range_eq_range', ← h2, List.map_append]
  have h3 : d - l.toNat = (d - l.toNat - 1) + 1 := by omega
  rw [map_indicator_range' l 0 l.toNat (fun j hj1 hj2 => by omega)]
  rw [h3, List.range'_succ]
  simp only [List.map_cons]
  rw [if_pos (by omega : (l.toNat : Int) = l)]
  rw [map_indicator_range' l (l.toNat + 1) (d - l.toNat - 1) (fun j hj1 hj2 => by omega)]
  have h4 : d - l.toNat - 1 + 1 - 1 = d - l.toNat - 1 := by omega
  rw [h4]

theorem argMax1_repl_one (a b : Nat) :
    argMax1 (List.replicate a 0 ++ 1 :: List.replicate b 0) = a := by
  have hz : ∀ v ∈ List.replicate b (0 : Int), v ≤ 1 := by
    intro v hv
    rw [List.eq_of_mem_replicate hv]
    omega
  cases a with
  | zero =>
    simp only [List.replicate, List.nil_append, argMax1]
    rw [argMaxAux_of_le _ 1 0 1 hz]
  | succ k =>
    rw [List.replicate_succ, List.cons_append]
    simp only [argMax1]
    rw [argMaxAux_repl k (List.replicate b 0) 1 0 hz]
    omega

theorem argMax1_oneHotRow (d : Nat) (l : Int) (h0 : 0 ≤ l) (hd : l < (d : Int)) :
    argMax1 (oneHotRow d l) = l := by
  rw [oneHotRow_eq d l h0 hd, argMax1_repl_one]
  omega

theorem argMax1_oneHotRow_zero (d : Nat) : argMax1 (oneHotRow d 0) = 0 := by
  cases d with
  | zero => rfl
  | succ m => exact argMax1_oneHotRow (m + 1) 0 le_rfl (by omega)

theorem argMax1_nonneg (xs : List Int) : 0 ≤ argMax1 xs := by
  cases xs <;> simp [argMax1]

theorem argMaxAux_lt (rest : List Int) (i bi : Nat) (bv : Int) (h : bi < i) :
    argMaxAux rest i bi bv < i + rest.length := by
  induction rest generalizing i bi bv with
  | nil =>
    simp only [argMaxAux, List.length_nil]
    omega
  | cons v vs ih =>
    simp only [argMaxAux, List.length_cons]
    split
    · have := ih (i + 1) i v (by omega)
      omega
    · have := ih (i + 1) bi bv (by omega)
      omega

theorem argMax1_lt_length (xs : List Int) (h : xs ≠ []) :
    argMax1 xs < (xs.length : Int) := by
  match xs with
  | v :: rest =>
    simp only [argMax1, List.length_cons]
    have := argMaxAux_lt rest 1 0 v (by omega)
    omega

/-! ### Monophony-scan lemmas -/

theorem monoOKb_le_start (L : Int) (notes : List Note)
    (hm : monoOKb L notes = true)
    (hdur : ∀ n ∈ notes, n.quantizedStartStep < n.quantizedEndStep) :
    ∀ n ∈ notes, L ≤ n.quantizedStartStep := by
  induction notes generalizing L with
  | nil =>
    intro n hn
    cases hn
  | cons m rest ih =>
    simp only [monoOKb, Bool.and_eq_true, decide_eq_true_eq] at hm
    intro n hn
    rcases List.mem_cons.mp hn with rfl | hn'
    · exact hm.1
    · have hmd : m.quantizedStartStep < m.quantizedEndStep := hdur m (by simp)
      have := ih m.quantizedEndStep hm.2
        (fun x hx => hdur x (List.mem_cons_of_mem m hx)) n hn'
      omega

/-! ### Encode characterization for the melody converter -/

theorem melWriteNotes_char (c : MelodyConverter) (notes : List Note) :
    ∀ (mel : List Int) (lastEnd : Int),
    monoOKb lastEnd notes = true →
    (∀ n ∈ notes, c.minPitch ≤ n.pitch ∧ n.pitch ≤ c.maxPitch) →
    (∀ n ∈ notes, n.quantizedStartStep < n.quantizedEndStep) →
    (∀ n ∈ notes, 0 ≤ n.quantizedStartStep ∧ n.quantizedEndStep < (mel.length : Int)) →
    ∃ mel', melWriteNotes c notes mel lastEnd = .ok mel' ∧ mel'.length = mel.length ∧
      ∀ j : Nat, j < mel.length →
        mel'[j]? =
          match notes.find? (fun m => m.quantizedStartStep == (j : Int)) with
          | some m => some (m.pitch - c.minPitch + FIRST_PITCH)
          | none =>
            if notes.any (fun m => m.quantizedEndStep == (j : Int)) then some NOTE_OFF
            else mel[j]? := by
  induction notes with
  | nil =>
    intro mel lastEnd _ _ _ _
    exact ⟨mel, rfl, rfl, fun j hj => by simp [melWriteNotes]⟩
  | cons n rest ih =>
    intro mel lastEnd hm hpr hdur hb
    simp only [monoOKb, Bool.and_eq_true, decide_eq_true_eq] at hm
    obtain ⟨hle, hmrest⟩ := hm
    have hprn := hpr n (by simp)
    have hdn := hdur n (by simp)
    have hbn := hb n (by simp)
    have hrestStart : ∀ m ∈ rest, n.quantizedEndStep ≤ m.quantizedStartStep :=
      monoOKb_le_start _ _ hmrest (fun x hx => hdur x (List.mem_cons_of_mem n hx))
    rw [melWriteNotes, if_neg (by omega : ¬ n.quantizedStartStep < lastEnd),
      if_neg (by omega : ¬ (n.pitch < c.minPitch ∨ n.pitch > c.maxPitch))]
    have hlen2 :
        (buf1Set (buf1Set mel n.quantizedStartStep (n.pitch - c.minPitch + FIRST_PITCH))
          n.quantizedEndStep NOTE_OFF).length = mel.length := by
      rw [length_buf1Set, length_buf1Set]
    obtain ⟨mel', hrun, hlen', hpt⟩ :=
      ih (buf1Set (buf1Set mel n.quantizedStartStep (n.pitch - c.minPitch + FIRST_PITCH))
          n.quantizedEndStep NOTE_OFF)
        n.quantizedEndStep hmrest
        (fun x hx => hpr x (List.mem_cons_of_mem n hx))
        (fun x hx => hdur x (List.mem_cons_of_mem n hx))
        (fun x hx => by
          rw [hlen2]
          exact hb x (List.mem_cons_of_mem n hx))
    refine ⟨mel', hrun, by rw [hlen', hlen2], ?_⟩
    intro j hj
    have hj2 : j <
        (buf1Set (buf1Set mel n.quantizedStartStep (n.pitch - c.minPitch + FIRST_PITCH))
          n.quantizedEndStep NOTE_OFF).length := by
      rw [hlen2]
      exact hj
    rw [hpt j hj2]
    by_cases hsn : n.quantizedStartStep = (j : Int)
    · have hfind :
          List.find? (fun m => m.quantizedStartStep == (j : Int)) (n :: rest) = some n := by
        simp [List.find?_cons, hsn]
      rw [hfind]
      have hrs : List.find? (fun m => m.quantizedStartStep == (j : Int)) rest = none := by
        rw [List.find?_eq_none]
        intro x hx
        have h1 := hrestStart x hx
        simp only [beq_iff_eq]
        omega
      have hra : rest.any (fun m => m.quantizedEndStep == (j : Int)) = false := by
        rw [Bool.eq_false_iff]
        intro hcon
        obtain ⟨x, hx, hxe⟩ := List.any_eq_true.mp hcon
        have h1 := hrestStart x hx
        have h2 := hdur x (List.mem_cons_of_mem n hx)
        simp only [beq_iff_eq] at hxe
        omega
      rw [hrs, hra]
      simp only [Bool.false_eq_true, if_false]
      rw [getElem?_buf1Set]
      rw [if_neg (by
        rw [length_buf1Set]
        omega)]
      rw [getElem?_buf1Set]
      rw [if_pos ⟨hsn, hj⟩]
    · have hfind :
          List.find? (fun m => m.quantizedStartStep == (j : Int)) (n :: rest) =
            List.find? (fun m => m.quantizedStartStep == (j : Int)) rest := by
        simp [List.find?_cons, hsn]
      rw [hfind]
      cases hfr : List.find? (fun m => m.quantizedStartStep == (j : Int)) rest with
      | some m => rfl
      | none =>
        rw [List.any_cons]
        by_cases hre : rest.any (fun m => m.quantizedEndStep == (j : Int)) = true
        · rw [hre]
          simp
        · have hre' : (rest.any fun m => m.quantizedEndStep == (j : Int)) = false :=
            Bool.eq_false_iff.mpr hre
          rw [hre']
          by_cases hne : n.quantizedEndStep = (j : Int)
          · have hb1 : (n.quantizedEndStep == (j : Int)) = true := by
              simp [hne]
            rw [hb1]
            simp only [getElem?_buf1Set, length_buf1Set, hne, hj]
            have hq := getElem?_buf1Set
              (buf1Set mel n.quantizedStartStep (n.pitch - c.minPitch + FIRST_PITCH))
              ((j : Int)) NOTE_OFF j
            rw [if_pos ⟨rfl, by
              rw [length_buf1Set]
              exact hj⟩] at hq
            simp [hq]
          · have hb1 : (n.quantizedEndStep == (j : Int)) = false := by
              simp [hne]
            rw [hb1]
            simp only [Bool.false_or, Bool.false_eq_true, if_false]
            rw [getElem?_buf1Set]
            rw [if_neg (fun hcon => hne hcon.1)]
            rw [getElem?_buf1Set]
            rw [if_neg (fun hcon => hsn hcon.1)]

/-! ### Decode-scan lemmas for the melody converter -/

theorem melDecodeStep_zero (c : MelodyConverter) (s : Nat) (curr : Option (Int × Int))
    (ns : List Note) : melDecodeStep c (s, curr, ns) 0 = (s + 1, curr, ns) := by
  simp [melDecodeStep]

theorem melDecodeStep_noteOff (c : MelodyConverter) (s : Nat) (curr : Option (Int × Int))
    (ns : List Note) :
    melDecodeStep c (s, curr, ns) NOTE_OFF =
      (s + 1, none,
        ns ++ (match curr with
               | some pst => [⟨pst.1, pst.2, (s : Int)⟩]
               | none => [])) := by
  rcases curr with _ | pst
  · simp [melDecodeStep, NOTE_OFF]
  · simp [melDecodeStep, NOTE_OFF]

theorem melDecodeStep_noteOn (c : MelodyConverter) (s : Nat) (curr : Option (Int × Int))
    (ns : List Note) (l : Int) (h2 : 2 ≤ l) :
    melDecodeStep c (s, curr, ns) l =
      (s + 1, some (l - FIRST_PITCH + c.minPitch, (s : Int)),
        ns ++ (match curr with
               | some pst => [⟨pst.1, pst.2, (s : Int)⟩]
               | none => [])) := by
  have h0 : ¬ l = 0 := by omega
  have h1 : ¬ l = NOTE_OFF := by
    simp only [NOTE_OFF]
    omega
  rcases curr with _ | pst
  · simp [melDecodeStep, h0, h1]
  · simp [melDecodeStep, h0, h1]

theorem melDecode_foldl_zeros (c : MelodyConverter) (labels : List Int)
    (h : ∀ l ∈ labels, l = 0) :
    ∀ (s : Nat) (curr : Option (Int × Int)) (ns : List Note),
    labels.foldl (melDecodeStep c) (s, curr, ns) = (s + labels.length, curr, ns) := by
  induction labels with
  | nil =>
    intro s curr ns
    simp
  | cons l ls ih =>
    intro s curr ns
    have hl : l = 0 := h l (by simp)
    rw [List.foldl_cons, hl, melDecodeStep_zero,
      ih (fun x hx => h x (List.mem_cons_of_mem l hx)) (s + 1)]
    simp only [List.length_cons]
    congr 1
    omega

/-- Generic version of mapping a constant-valued function over a range. -/
theorem map_range'_eq_replicate {β : Type} (f : Nat → β) (z : β) (s k : Nat)
    (h : ∀ j : Nat, s ≤ j → j < s + k → f j = z) :
    (List.range' s k).map f = List.replicate k z := by
  induction k generalizing s with
  | zero => rfl
  | succ m ih =>
    rw [List.range'_succ]
    simp only [List.map_cons, h s le_rfl (by omega), List.replicate_succ]
    rw [ih (s + 1) (fun j hj1 hj2 => h j (by omega) (by omega))]

/-! ### Pointwise lemmas about labelFn -/

theorem labelFn_nil (c : MelodyConverter) (j : Nat) : labelFn c [] j = 0 := by
  simp [labelFn]

theorem labelFn_cons_start (c : MelodyConverter) (n : Note) (rest : List Note) (j : Nat)
    (hs : n.quantizedStartStep = (j : Int)) :
    labelFn c (n :: rest) j = n.pitch - c.minPitch + FIRST_PITCH := by
  unfold labelFn
  rw [List.find?_cons]
  simp [hs]

theorem labelFn_cons_of_ne (c : MelodyConverter) (n : Note) (rest : List Note) (j : Nat)
    (hs : n.quantizedStartStep ≠ (j : Int)) (he : n.quantizedEndStep ≠ (j : Int)) :
    labelFn c (n :: rest) j = labelFn c rest j := by
  unfold labelFn
  rw [List.find?_cons]
  have hs' : (n.quantizedStartStep == (j : Int)) = false := by
    simp [hs]
  have he' : (n.quantizedEndStep == (j : Int)) = false := by
    simp [he]
  rw [hs', List.any_cons, he']
  simp

theorem labelFn_cons_of_find (c : MelodyConverter) (n : Note) (rest : List Note) (j : Nat)
    (hs : n.quantizedStartStep ≠ (j : Int))
    (hfr : (List.find? (fun m => m.quantizedStartStep == (j : Int)) rest).isSome) :
    labelFn c (n :: rest) j = labelFn c rest j := by
  unfold labelFn
  rw [List.find?_cons]
  have hs' : (n.quantizedStartStep == (j : Int)) = false := by
    simp [hs]
  rw [hs']
  obtain ⟨m, hm⟩ := Option.isSome_iff_exists.mp hfr
  rw [hm]

theorem labelFn_cons_end (c : MelodyConverter) (n : Note) (rest : List Note) (j : Nat)
    (hs : n.quantizedStartStep ≠ (j : Int)) (he : n.quantizedEndStep = (j : Int))
    (hfr : List.find? (fun m => m.quantizedStartStep == (j : Int)) rest = none) :
    labelFn c (n :: rest) j = NOTE_OFF := by
  unfold labelFn
  rw [List.find?_cons]
  have hs' : (n.quantizedStartStep == (j : Int)) = false := by
    simp [hs]
  rw [hs', hfr, List.any_cons]
  simp [he]

/-- The notes of the tail of a sorted monophonic positive-duration list start
no earlier than the head's end step. -/
theorem chain'_end_le_start (n : Note) (rest : List Note)
    (hch : List.Chain' (fun a b => a.quantizedEndStep ≤ b.quantizedStartStep) (n :: rest))
    (hdur : ∀ m ∈ rest, m.quantizedStartStep < m.quantizedEndStep) :
    ∀ m ∈ rest, n.quantizedEndStep ≤ m.quantizedStartStep := by
  induction rest generalizing n with
  | nil =>
    intro m hm
    cases hm
  | cons m rest' ih =>
    rw [List.chain'_cons] at hch
    intro x hx
    rcases List.mem_cons.mp hx with rfl | hx'
    · exact hch.1
    · have h1 := ih m hch.2 (fun y hy => hdur y (List.mem_cons_of_mem m hy)) x hx'
      have h2 : m.quantizedStartStep < m.quantizedEndStep := hdur m (by simp)
      omega

theorem labelFn_eq_zero (c : MelodyConverter) (notes : List Note) (j : Nat)
    (hs : ∀ m ∈ notes, m.quantizedStartStep ≠ (j : Int))
    (he : ∀ m ∈ notes, m.quantizedEndStep ≠ (j : Int)) :
    labelFn c notes j = 0 := by
  unfold labelFn
  rw [List.find?_eq_none.mpr (fun x hx => by simp [hs x hx])]
  have : notes.any (fun m => m.quantizedEndStep == (j : Int)) = false := by
    rw [Bool.eq_false_iff]
    intro hcon
    obtain ⟨x, hx, hxe⟩ := List.any_eq_true.mp hcon
    exact he x hx (by simpa using hxe)
  rw [this]
  simp

/-- Main decode lemma: scanning the labels described by `labelFn` for a
sorted, monophonic, positive-duration note list from position `pos`, with an
open note exactly when the next note starts at `pos` (a note-on overwrote the
previous note-off), emits the closed note followed by exactly those notes. -/
theorem melDecode_labelSeg (c : MelodyConverter) (notes : List Note) :
    ∀ (pos N : Nat) (curr : Option (Int × Int)) (acc : List Note),
    (∀ n ∈ notes, c.minPitch ≤ n.pitch) →
    (∀ n ∈ notes, n.quantizedStartStep < n.quantizedEndStep) →
    (∀ n ∈ notes, n.quantizedEndStep < (N : Int)) →
    List.Chain' (fun a b => a.quantizedEndStep ≤ b.quantizedStartStep) notes →
    pos ≤ N →
    (match curr, notes with
     | none, [] => True
     | none, m :: _ => (pos : Int) ≤ m.quantizedStartStep
     | some _, m :: _ => m.quantizedStartStep = (pos : Int)
     | some _, [] => False) →
    (labelSeg c notes pos N).foldl (melDecodeStep c) (pos, curr, acc) =
      (N, none,
        acc ++ (match curr with
                | some pst => [⟨pst.1, pst.2, (pos : Int)⟩]
                | none => []) ++ notes) := by
  induction notes with
  | nil =>
    intro pos N curr acc _ _ _ _ hposN hcurr
    rcases curr with _ | pst
    · have hz : ∀ l ∈ labelSeg c [] pos N, l = 0 := by
        intro l hl
        unfold labelSeg at hl
        obtain ⟨j, hj, rfl⟩ := List.mem_map.mp hl
        exact labelFn_nil c j
      rw [melDecode_foldl_zeros c _ hz pos none acc]
      have hlen : (labelSeg c [] pos N).length = N - pos := by
        unfold labelSeg
        simp
      rw [hlen, show pos + (N - pos) = N from by omega]
      simp
    · exact hcurr.elim
  | cons n rest IH =>
    intro pos N curr acc hpr hdur hbN hch hposN hcurr
    have hdn : n.quantizedStartStep < n.quantizedEndStep := hdur n (by simp)
    have hbn : n.quantizedEndStep < (N : Int) := hbN n (by simp)
    have hprn : c.minPitch ≤ n.pitch := hpr n (by simp)
    have hrest_start : ∀ m ∈ rest, n.quantizedEndStep ≤ m.quantizedStartStep :=
      chain'_end_le_start n rest hch (fun y hy => hdur y (List.mem_cons_of_mem n hy))
    have hch' : List.Chain' (fun a b => a.quantizedEndStep ≤ b.quantizedStartStep) rest :=
      hch.tail
    have hpr' : ∀ m ∈ rest, c.minPitch ≤ m.pitch :=
      fun x hx => hpr x (List.mem_cons_of_mem n hx)
    have hdur' : ∀ m ∈ rest, m.quantizedStartStep < m.quantizedEndStep :=
      fun x hx => hdur x (List.mem_cons_of_mem n hx)
    have hbN' : ∀ m ∈ rest, m.quantizedEndStep < (N : Int) :=
      fun x hx => hbN x (List.mem_cons_of_mem n hx)
    -- the continuation after the note-on of `n` has been processed
    have hcont : ∀ (acc2 : List Note), 0 ≤ n.quantizedStartStep →
        ((List.range' (n.quantizedStartStep.toNat + 1) (N - n.quantizedStartStep.toNat - 1)).map
            (fun j => labelFn c (n :: rest) j)).foldl (melDecodeStep c)
          (n.quantizedStartStep.toNat + 1, some (n.pitch, n.quantizedStartStep), acc2)
        = (N, none, acc2 ++ n :: rest) := by
      intro acc2 h0s
      have hs'c : ((n.quantizedStartStep.toNat : Int)) = n.quantizedStartStep :=
        Int.toNat_of_nonneg h0s
      have h0e : 0 ≤ n.quantizedEndStep := by omega
      have he'c : ((n.quantizedEndStep.toNat : Int)) = n.quantizedEndStep :=
        Int.toNat_of_nonneg h0e
      have hs'e' : n.quantizedStartStep.toNat < n.quantizedEndStep.toNat := by omega
      have he'N : n.quantizedEndStep.toNat < N := by omega
      have hsplit : List.range' (n.quantizedStartStep.toNat + 1) (N - n.quantizedStartStep.toNat - 1) =
          List.range' (n.quantizedStartStep.toNat + 1)
            (n.quantizedEndStep.toNat - n.quantizedStartStep.toNat - 1) ++
          List.range' n.quantizedEndStep.toNat (N - n.quantizedEndStep.toNat) := by
        have h := List.range'_append (n.quantizedStartStep.toNat + 1)
          (n.quantizedEndStep.toNat - n.quantizedStartStep.toNat - 1)
          (N - n.quantizedEndStep.toNat) 1
        rw [Nat.one_mul] at h
        rw [show n.quantizedStartStep.toNat + 1 +
            (n.quantizedEndStep.toNat - n.quantizedStartStep.toNat - 1) =
            n.quantizedEndStep.toNat from by omega] at h
        rw [show N - n.quantizedEndStep.toNat +
            (n.quantizedEndStep.toNat - n.quantizedStartStep.toNat - 1) =
            N - n.quantizedStartStep.toNat - 1 from by omega] at h
        exact h.symm
      rw [hsplit, List.map_append, List.foldl_append]
      have hzeros : (List.range' (n.quantizedStartStep.toNat + 1)
          (n.quantizedEndStep.toNat - n.quantizedStartStep.toNat - 1)).map
            (fun j => labelFn c (n :: rest) j) =
          List.replicate (n.quantizedEndStep.toNat - n.quantizedStartStep.toNat - 1) 0 := by
        apply map_range'_eq_replicate
        intro j hj1 hj2
        apply labelFn_eq_zero
        · intro m hm
          rcases List.mem_cons.mp hm with rfl | hm'
          · omega
          · have := hrest_start m hm'
            omega
        · intro m hm
          rcases List.mem_cons.mp hm with rfl | hm'
          · omega
          · have h1 := hrest_start m hm'
            have h2 := hdur' m hm'
            omega
      rw [hzeros, melDecode_foldl_zeros c _
        (fun l hl => List.eq_of_mem_replicate hl) _ _ _,
        List.length_replicate,
        show n.quantizedStartStep.toNat + 1 +
          (n.quantizedEndStep.toNat - n.quantizedStartStep.toNat - 1) =
          n.quantizedEndStep.toNat from by omega]
      rcases hrw : rest with _ | ⟨m0, rest'⟩
      · subst hrw
        rw [show N - n.quantizedEndStep.toNat = (N - n.quantizedEndStep.toNat - 1) + 1 from by omega,
          List.range'_succ, List.map_cons, List.foldl_cons]
        rw [labelFn_cons_end c n [] n.quantizedEndStep.toNat (by omega) he'c.symm rfl]
        rw [melDecodeStep_noteOff]
        dsimp only
        have hnote : (⟨n.pitch, n.quantizedStartStep, (n.quantizedEndStep.toNat : Int)⟩ : Note) = n := by
          rw [he'c]
        rw [hnote]
        have hmapeq : (List.range' (n.quantizedEndStep.toNat + 1) (N - n.quantizedEndStep.toNat - 1)).map
            (fun j => labelFn c [n] j) =
            labelSeg c [] (n.quantizedEndStep.toNat + 1) N := by
          unfold labelSeg
          rw [show N - (n.quantizedEndStep.toNat + 1) = N - n.quantizedEndStep.toNat - 1 from by omega]
          apply List.map_congr_left
          intro j hj
          obtain ⟨i, hi, rfl⟩ := List.mem_range'.mp hj
          exact labelFn_cons_of_ne c n [] _ (by omega) (by omega)
        rw [hmapeq]
        rw [IH (n.quantizedEndStep.toNat + 1) N none (acc2 ++ [n])
          hpr' hdur' hbN' hch' (by omega) trivial]
        simp
      · subst hrw
        by_cases hov : m0.quantizedStartStep = n.quantizedEndStep
        · have hmapeq : (List.range' n.quantizedEndStep.toNat (N - n.quantizedEndStep.toNat)).map
              (fun j => labelFn c (n :: m0 :: rest') j) =
              labelSeg c (m0 :: rest') n.quantizedEndStep.toNat N := by
            unfold labelSeg
            apply List.map_congr_left
            intro j hj
            obtain ⟨i, hi, rfl⟩ := List.mem_range'.mp hj
            by_cases hje : n.quantizedEndStep.toNat + 1 * i = n.quantizedEndStep.toNat
            · rw [hje]
              apply labelFn_cons_of_find c n (m0 :: rest') n.quantizedEndStep.toNat (by omega)
              simp [List.find?_cons, hov, he'c]
            · have hjgt : n.quantizedEndStep.toNat < n.quantizedEndStep.toNat + 1 * i := by omega
              apply labelFn_cons_of_ne
              · omega
              · omega
          rw [hmapeq]
          rw [IH n.quantizedEndStep.toNat N (some (n.pitch, n.quantizedStartStep)) acc2
            hpr' hdur' hbN' hch' (by omega) (by
              dsimp only
              rw [hov, he'c])]
          dsimp only
          have hnote : (⟨n.pitch, n.quantizedStartStep, (n.quantizedEndStep.toNat : Int)⟩ : Note) = n := by
            rw [he'c]
          rw [hnote]
          simp
        · have hm0s : n.quantizedEndStep ≤ m0.quantizedStartStep := hrest_start m0 (by simp)
          have hm0gt : n.quantizedEndStep < m0.quantizedStartStep := by
            rcases lt_or_eq_of_le hm0s with h | h
            · exact h
            · exact absurd h.symm hov
          have hrest'_start : ∀ x ∈ rest', m0.quantizedEndStep ≤ x.quantizedStartStep :=
            chain'_end_le_start m0 rest' hch'
              (fun y hy => hdur' y (List.mem_cons_of_mem m0 hy))
          rw [show N - n.quantizedEndStep.toNat = (N - n.quantizedEndStep.toNat - 1) + 1 from by omega,
            List.range'_succ, List.map_cons, List.foldl_cons]
          rw [labelFn_cons_end c n (m0 :: rest') n.quantizedEndStep.toNat (by omega) he'c.symm ?hfr]
          case hfr =>
            rw [List.find?_eq_none]
            intro x hx
            rcases List.mem_cons.mp hx with rfl | hx'
            · simp only [beq_iff_eq]
              omega
            · have h1 := hrest'_start x hx'
              have h2 : m0.quantizedStartStep < m0.quantizedEndStep := hdur' m0 (by simp)
              simp only [beq_iff_eq]
              omega
          rw [melDecodeStep_noteOff]
          dsimp only
          have hnote : (⟨n.pitch, n.quantizedStartStep, (n.quantizedEndStep.toNat : Int)⟩ : Note) = n := by
            rw [he'c]
          rw [hnote]
          have hmapeq : (List.range' (n.quantizedEndStep.toNat + 1) (N - n.quantizedEndStep.toNat - 1)).map
              (fun j => labelFn c (n :: m0 :: rest') j) =
              labelSeg c (m0 :: rest') (n.quantizedEndStep.toNat + 1) N := by
            unfold labelSeg
            rw [show N - (n.quantizedEndStep.toNat + 1) = N - n.quantizedEndStep.toNat - 1 from by omega]
            apply List.map_congr_left
            intro j hj
            obtain ⟨i, hi, rfl⟩ := List.mem_range'.mp hj
            apply labelFn_cons_of_ne
            · omega
            · omega
          rw [hmapeq]
          rw [IH (n.quantizedEndStep.toNat + 1) N none (acc2 ++ [n])
            hpr' hdur' hbN' hch' (by omega) (by
              dsimp only
              push_cast
              omega)]
          simp
    -- now the two shapes of the incoming state
    rcases curr with _ | pst
    · have h0s : 0 ≤ n.quantizedStartStep := by
        have : (pos : Int) ≤ n.quantizedStartStep := hcurr
        omega
      have hs'c : ((n.quantizedStartStep.toNat : Int)) = n.quantizedStartStep :=
        Int.toNat_of_nonneg h0s
      have hposs : pos ≤ n.quantizedStartStep.toNat := by
        have : (pos : Int) ≤ n.quantizedStartStep := hcurr
        omega
      have hs'N : n.quantizedStartStep.toNat < N := by omega
      unfold labelSeg
      have hsplit : List.range' pos (N - pos) =
          List.range' pos (n.quantizedStartStep.toNat - pos) ++
          List.range' n.quantizedStartStep.toNat (N - n.quantizedStartStep.toNat) := by
        have h := List.range'_append pos (n.quantizedStartStep.toNat - pos)
          (N - n.quantizedStartStep.toNat) 1
        rw [Nat.one_mul] at h
        rw [show pos + (n.quantizedStartStep.toNat - pos) = n.quantizedStartStep.toNat from by omega] at h
        rw [show N - n.quantizedStartStep.toNat + (n.quantizedStartStep.toNat - pos) = N - pos from by omega] at h
        exact h.symm
      rw [hsplit, List.map_append, List.foldl_append]
      have hzeros : (List.range' pos (n.quantizedStartStep.toNat - pos)).map
          (fun j => labelFn c (n :: rest) j) =
          List.replicate (n.quantizedStartStep.toNat - pos) 0 := by
        apply map_range'_eq_replicate
        intro j hj1 hj2
        apply labelFn_eq_zero
        · intro m hm
          rcases List.mem_cons.mp hm with rfl | hm'
          · omega
          · have := hrest_start m hm'
            omega
        · intro m hm
          rcases List.mem_cons.mp hm with rfl | hm'
          · omega
          · have h1 := hrest_start m hm'
            have h2 := hdur' m hm'
            omega
      rw [hzeros, melDecode_foldl_zeros c _
        (fun l hl => List.eq_of_mem_replicate hl) _ _ _,
        List.length_replicate,
        show pos + (n.quantizedStartStep.toNat - pos) = n.quantizedStartStep.toNat from by omega]
      rw [show N - n.quantizedStartStep.toNat = (N - n.quantizedStartStep.toNat - 1) + 1 from by omega,
        List.range'_succ, List.map_cons, List.foldl_cons]
      rw [labelFn_cons_start c n rest n.quantizedStartStep.toNat hs'c.symm]
      rw [melDecodeStep_noteOn c _ _ _ _ (by
        simp only [FIRST_PITCH]
        omega)]
      dsimp only
      rw [show n.pitch - c.minPitch + FIRST_PITCH - FIRST_PITCH + c.minPitch = n.pitch from by ring]
      rw [hs'c]
      have := hcont acc h0s
      simp only [List.append_nil]
      rw [this]
    · have hstart : n.quantizedStartStep = (pos : Int) := hcurr
      have h0s : 0 ≤ n.quantizedStartStep := by omega
      have hs'pos : n.quantizedStartStep.toNat = pos := by omega
      have hposN' : pos < N := by
        have := hbn
        omega
      unfold labelSeg
      rw [show N - pos = (N - pos - 1) + 1 from by omega,
        List.range'_succ, List.map_cons, List.foldl_cons]
      rw [labelFn_cons_start c n rest pos hstart]
      rw [melDecodeStep_noteOn c _ _ _ _ (by
        simp only [FIRST_PITCH]
        omega)]
      dsimp only
      rw [show n.pitch - c.minPitch + FIRST_PITCH - FIRST_PITCH + c.minPitch = n.pitch from by ring]
      have hthis := hcont (acc ++ [⟨pst.1, pst.2, (pos : Int)⟩]) h0s
      rw [hs'pos] at hthis
      rw [hstart] at hthis
      rw [hthis]

/-! ### Bridging lemmas between the scans and the sort order -/

theorem monoOKb_chain' (L : Int) (notes : List Note) (hm : monoOKb L notes = true) :
    List.Chain' (fun a b => a.quantizedEndStep ≤ b.quantizedStartStep) notes := by
  induction notes generalizing L with
  | nil => exact List.chain'_nil
  | cons n rest ih =>
    simp only [monoOKb, Bool.and_eq_true, decide_eq_true_eq] at hm
    cases rest with
    | nil => simp
    | cons m rest' =>
      rw [List.chain'_cons]
      have hm2 := hm.2
      refine ⟨?_, ih n.quantizedEndStep hm.2⟩
      simp only [monoOKb, Bool.and_eq_true, decide_eq_true_eq] at hm2
      exact hm2.1

theorem monoOKb_of_pairwise (notes : List Note) :
    ∀ (L : Int),
    (∀ n ∈ notes, L ≤ n.quantizedStartStep) →
    List.Pairwise (fun a b => a.quantizedStartStep ≤ b.quantizedStartStep) notes →
    List.Pairwise (fun a b => a.quantizedEndStep ≤ b.quantizedStartStep ∨
      b.quantizedEndStep ≤ a.quantizedStartStep) notes →
    (∀ n ∈ notes, n.quantizedStartStep < n.quantizedEndStep) →
    monoOKb L notes = true := by
  induction notes with
  | nil =>
    intro L _ _ _ _
    rfl
  | cons n rest ih =>
    intro L hL hsorted hdisj hdur
    rw [List.pairwise_cons] at hsorted hdisj
    have hhead : ∀ m ∈ rest, n.quantizedEndStep ≤ m.quantizedStartStep := by
      intro m hm
      rcases hdisj.1 m hm with h | h
      · exact h
      · have h1 := hsorted.1 m hm
        have h2 := hdur m (List.mem_cons_of_mem n hm)
        omega
    simp only [monoOKb, Bool.and_eq_true, decide_eq_true_eq]
    exact ⟨hL n (by simp),
      ih n.quantizedEndStep hhead hsorted.2 hdisj.2
        (fun x hx => hdur x (List.mem_cons_of_mem n hx))⟩

theorem sortByStartStep_perm (notes : List Note) :
    (sortByStartStep notes).Perm notes :=
  List.mergeSort_perm notes melodySortLe

theorem sortByStartStep_sorted (notes : List Note) :
    List.Pairwise (fun a b => a.quantizedStartStep ≤ b.quantizedStartStep)
      (sortByStartStep notes) := by
  have h := @List.sorted_mergeSort Note melodySortLe
    (fun a b c hab hbc => by
      simp only [melodySortLe, decide_eq_true_eq] at hab hbc ⊢
      omega)
    (fun a b => by
      simp only [melodySortLe]
      rcases le_total a.quantizedStartStep b.quantizedStartStep with h | h
      · simp [h]
      · simp [h])
    notes
  exact h.imp (fun hab => by simpa [melodySortLe] using hab)

/-! ### The label list produced by a successful melody encode -/

theorem melWriteNotes_eq_labels (c : MelodyConverter) (notes : List Note) (N : Nat)
    (hm : monoOKb (-1) notes = true)
    (hpr : ∀ n ∈ notes, c.minPitch ≤ n.pitch ∧ n.pitch ≤ c.maxPitch)
    (hdur : ∀ n ∈ notes, n.quantizedStartStep < n.quantizedEndStep)
    (hb : ∀ n ∈ notes, 0 ≤ n.quantizedStartStep ∧ n.quantizedEndStep < (N : Int)) :
    melWriteNotes c notes (List.replicate N 0) (-1) =
      .ok ((List.range' 0 N).map (fun j => labelFn c notes j)) := by
  obtain ⟨mel', hrun, hlen, hpt⟩ := melWriteNotes_char c notes (List.replicate N 0) (-1)
    hm hpr hdur (by simpa using hb)
  rw [hrun]
  congr 1
  apply List.ext_getElem?
  intro j
  by_cases hj : j < N
  · rw [hpt j (by simpa using hj)]
    have hr : ((List.range' 0 N).map (fun j => labelFn c notes j))[j]? =
        some (labelFn c notes j) := by
      rw [List.getElem?_map, List.getElem?_range' 0 1 hj]
      simp
    rw [hr]
    unfold labelFn
    cases hf : List.find? (fun m => m.quantizedStartStep == (j : Int)) notes with
    | some m => rfl
    | none =>
      by_cases ha : notes.any (fun m => m.quantizedEndStep == (j : Int)) = true
      · rw [ha]
        simp
      · rw [Bool.eq_false_iff.mpr ha]
        simp [List.getElem?_replicate, hj]
  · rw [List.getElem?_eq_none (by
      rw [hlen, List.length_replicate]
      omega)]
    rw [List.getElem?_eq_none (by
      rw [List.length_map, List.length_range']
      omega)]

/-! ### Inverting the one-hot expansion by argMax -/

theorem argMax_oneHot_labelFn (c : MelodyConverter) (notes : List Note) (j : Nat)
    (hpr : ∀ n ∈ notes, c.minPitch ≤ n.pitch ∧ n.pitch ≤ c.maxPitch) :
    argMax1 (oneHotRow c.depth.toNat (labelFn c notes j)) = labelFn c notes j := by
  unfold labelFn
  cases hf : List.find? (fun m => m.quantizedStartStep == (j : Int)) notes with
  | some m =>
    have hmem : m ∈ notes := List.mem_of_find?_eq_some hf
    have hp := hpr m hmem
    have hminmax : c.minPitch ≤ c.maxPitch := by omega
    have hd : ((c.depth.toNat : Nat) : Int) = c.depth := by
      apply Int.toNat_of_nonneg
      unfold MelodyConverter.depth
      omega
    apply argMax1_oneHotRow
    · simp only [FIRST_PITCH]
      omega
    · rw [hd]
      unfold MelodyConverter.depth
      simp only [FIRST_PITCH]
      omega
  | none =>
    by_cases ha : notes.any (fun m => m.quantizedEndStep == (j : Int)) = true
    · rw [ha]
      simp only [if_true]
      obtain ⟨m, hm, _⟩ := List.any_eq_true.mp ha
      have hp := hpr m hm
      have hminmax : c.minPitch ≤ c.maxPitch := by omega
      have hd : ((c.depth.toNat : Nat) : Int) = c.depth := by
        apply Int.toNat_of_nonneg
        unfold MelodyConverter.depth
        omega
      apply argMax1_oneHotRow
      · simp [NOTE_OFF]
      · rw [hd]
        unfold MelodyConverter.depth
        simp only [NOTE_OFF]
        omega
    · rw [Bool.eq_false_iff.mpr ha]
      simp only [Bool.false_eq_true, if_false]
      exact argMax1_oneHotRow_zero c.depth.toNat

/-- Decoding the one-hot expansion of the label list written by a successful
melody encode recovers exactly the (sorted) note list. -/
theorem melody_decode_of_labels (c : MelodyConverter) (g : List Note)
    (hpr : ∀ n ∈ g, c.minPitch ≤ n.pitch ∧ n.pitch ≤ c.maxPitch)
    (hdur : ∀ n ∈ g, n.quantizedStartStep < n.quantizedEndStep)
    (hbN : ∀ n ∈ g, 0 ≤ n.quantizedStartStep ∧ n.quantizedEndStep < (c.numSteps : Int))
    (hm : monoOKb (-1) g = true) :
    c.toNoteSequence (((List.range' 0 c.numSteps).map (fun j => labelFn c g j)).map
      (oneHotRow c.depth.toNat)) = g := by
  unfold MelodyConverter.toNoteSequence
  have hlab : ((((List.range' 0 c.numSteps).map (fun j => labelFn c g j)).map
      (oneHotRow c.depth.toNat)).map argMax1) =
      (List.range' 0 c.numSteps).map (fun j => labelFn c g j) := by
    rw [List.map_map, List.map_map]
    apply List.map_congr_left
    intro j hj
    exact argMax_oneHot_labelFn c g j hpr
  simp only [hlab]
  have hseg : (List.range' 0 c.numSteps).map (fun j => labelFn c g j) =
      labelSeg c g 0 c.numSteps := by
    unfold labelSeg
    rw [Nat.sub_zero]
  rw [hseg]
  rw [melDecode_labelSeg c g 0 c.numSteps none [] (fun n hn => (hpr n hn).1) hdur
    (fun n hn => (hbN n hn).2) (monoOKb_chain' (-1) g hm) (Nat.zero_le _) ?hc]
  case hc =>
    cases g with
    | nil => trivial
    | cons m ms =>
      dsimp only
      have := hbN m (by simp)
      push_cast
      omega
  simp

/-- Claim C1 (amended): for a note sequence whose notes have pitches within
the configured range, start and end steps within `[0, numSteps)`, positive
duration, and pairwise non-overlapping spans, `MelodyConverter.toTensor`
succeeds and decoding the produced tensor with `toNoteSequence` yields
exactly the same set of `(pitch, startStep, endStep)` tuples. -/
theorem melody_roundtrip_positive_duration (c : MelodyConverter) (notes : List Note)
    (hpr : ∀ n ∈ notes, c.minPitch ≤ n.pitch ∧ n.pitch ≤ c.maxPitch)
    (hb : ∀ n ∈ notes, 0 ≤ n.quantizedStartStep ∧ n.quantizedStartStep < (c.numSteps : Int) ∧
      0 ≤ n.quantizedEndStep ∧ n.quantizedEndStep < (c.numSteps : Int))
    (hdur : ∀ n ∈ notes, n.quantizedStartStep < n.quantizedEndStep)
    (hdisj : List.Pairwise (fun a b => a.quantizedEndStep ≤ b.quantizedStartStep ∨
      b.quantizedEndStep ≤ a.quantizedStartStep) notes) :
    ∃ T, c.toTensor notes = .ok T ∧
      ∀ x : Note, x ∈ c.toNoteSequence T ↔ x ∈ notes := by
  have hperm := sortByStartStep_perm notes
  have hmemg : ∀ x : Note, x ∈ sortByStartStep notes ↔ x ∈ notes := fun x => hperm.mem_iff
  have hprg : ∀ n ∈ sortByStartStep notes, c.minPitch ≤ n.pitch ∧ n.pitch ≤ c.maxPitch :=
    fun n hn => hpr n ((hmemg n).mp hn)
  have hdurg : ∀ n ∈ sortByStartStep notes, n.quantizedStartStep < n.quantizedEndStep :=
    fun n hn => hdur n ((hmemg n).mp hn)
  have hbg : ∀ n ∈ sortByStartStep notes,
      0 ≤ n.quantizedStartStep ∧ n.quantizedStartStep < (c.numSteps : Int) ∧
      0 ≤ n.quantizedEndStep ∧ n.quantizedEndStep < (c.numSteps : Int) :=
    fun n hn => hb n ((hmemg n).mp hn)
  have hsorted := sortByStartStep_sorted notes
  have hdisjg : List.Pairwise (fun a b => a.quantizedEndStep ≤ b.quantizedStartStep ∨
      b.quantizedEndStep ≤ a.quantizedStartStep) (sortByStartStep notes) :=
    (List.Perm.pairwise_iff (fun h => h.symm) hperm).mpr hdisj
  have hmono : monoOKb (-1) (sortByStartStep notes) = true :=
    monoOKb_of_pairwise (sortByStartStep notes) (-1)
      (fun n hn => by
        have := hbg n hn
        omega)
      hsorted hdisjg hdurg
  have henc := melWriteNotes_eq_labels c (sortByStartStep notes) c.numSteps hmono hprg hdurg
    (fun n hn => by
      have := hbg n hn
      exact ⟨this.1, this.2.2.2⟩)
  refine ⟨((List.range' 0 c.numSteps).map (fun j => labelFn c (sortByStartStep notes) j)).map
    (oneHotRow c.depth.toNat), ?_, ?_⟩
  · unfold MelodyConverter.toTensor
    rw [henc]
    rfl
  · intro x
    rw [melody_decode_of_labels c (sortByStartStep notes) hprg hdurg
      (fun n hn => by
        have := hbg n hn
        exact ⟨this.1, this.2.2.2⟩) hmono]
    exact hmemg x

/-- Counterexample to claim C1 as stated: the zero-duration note
`{pitch 60, start 1, end 1}` is non-overlapping and within all bounds for the
converter `numSteps 4, minPitch 60, maxPitch 61`, yet its note-off label
overwrites its note-on label, encoding succeeds with the label sequence
`[0, 1, 0, 0]`, and decoding returns the empty sequence rather than the same
tuple set. -/
theorem melody_roundtrip_cex_zero_duration :
    (MelodyConverter.mk 4 60 61).toTensor [⟨60, 1, 1⟩] =
      .ok (List.map (oneHotRow 4) [0, 1, 0, 0]) ∧
    (MelodyConverter.mk 4 60 61).toNoteSequence (List.map (oneHotRow 4) [0, 1, 0, 0]) = [] := by
  constructor
  · have hs : sortByStartStep [(⟨60, 1, 1⟩ : Note)] = [⟨60, 1, 1⟩] := by
      simp [sortByStartStep, List.mergeSort]
    unfold MelodyConverter.toTensor
    rw [hs]
    rfl
  · rfl

/-- Witness for the amended claim C1 at a concrete input. -/
theorem melody_roundtrip_positive_duration_witness :
    (∀ n ∈ ([⟨60, 0, 2⟩, ⟨61, 2, 3⟩] : List Note),
      (60 : Int) ≤ n.pitch ∧ n.pitch ≤ 61) ∧
    (∃ T, (MelodyConverter.mk 4 60 61).toTensor [⟨60, 0, 2⟩, ⟨61, 2, 3⟩] = .ok T ∧
      ∀ x : Note, x ∈ (MelodyConverter.mk 4 60 61).toNoteSequence T ↔
        x ∈ ([⟨60, 0, 2⟩, ⟨61, 2, 3⟩] : List Note)) :=
  ⟨by decide,
    melody_roundtrip_positive_duration (MelodyConverter.mk 4 60 61)
      [⟨60, 0, 2⟩, ⟨61, 2, 3⟩] (by decide) (by decide) (by decide) (by decide)⟩

/-! ### Claim C4: the encode-side sort mutates the caller's array -/

/-- Counterexample to claim C4 as stated: `toTensor` sorts the caller's notes
array in place (line 253 calls `Array.prototype.sort` on `noteSequence.notes`
itself), so after the call the input holds the sorted order, not the original
order.  For the input `[{61,2,4}, {60,0,2}]` the after-call contents differ
from the original contents. -/
theorem melody_encode_mutates_input_cex :
    sortByStartStep [⟨61, 2, 4⟩, ⟨60, 0, 2⟩] = [⟨60, 0, 2⟩, ⟨61, 2, 4⟩] ∧
    ([⟨60, 0, 2⟩, ⟨61, 2, 4⟩] : List Note) ≠ [⟨61, 2, 4⟩, ⟨60, 0, 2⟩] := by
  constructor
  · simp [sortByStartStep, List.mergeSort, melodySortLe]
  · decide

/-- Claim C4 (amended): after `MelodyConverter.toTensor` returns or fails,
the caller's notes collection holds a stably sorted permutation of its
previous contents, ordered by ascending `quantizedStartStep` — the same
notes, but not necessarily in the same order. -/
theorem melody_encode_input_after_call (notes : List Note) :
    (sortByStartStep notes).Perm notes ∧
    List.Pairwise (fun a b => a.quantizedStartStep ≤ b.quantizedStartStep)
      (sortByStartStep notes) :=
  ⟨sortByStartStep_perm notes, sortByStartStep_sorted notes⟩

/-! ### Claim C5: the concrete two-note example -/

/-- Counterexample to claim C5 as stated: with `numSteps 4, minPitch 60,
maxPitch 61` the label depth is `61 - 60 + 3 = 4` (not 5), and encoding
`[{60,0,2}, {61,2,4}]` produces the label sequence `[2,0,3,0]` (step 1 is a
hold, the note-off at step 2 is overwritten by the second note-on, and the
note-off at step 4 falls outside the buffer), not `[2,1,3,1]`.  Decoding the
claimed tensor would also return different notes. -/
theorem melody_example_cex :
    (MelodyConverter.mk 4 60 61).depth = 4 ∧
    (MelodyConverter.mk 4 60 61).toTensor [⟨60, 0, 2⟩, ⟨61, 2, 4⟩] =
      .ok (List.map (oneHotRow 4) [2, 0, 3, 0]) ∧
    List.map (oneHotRow 4) [2, 0, 3, 0] ≠ List.map (oneHotRow 5) [2, 1, 3, 1] ∧
    (MelodyConverter.mk 4 60 61).toNoteSequence (List.map (oneHotRow 5) [2, 1, 3, 1]) ≠
      [⟨60, 0, 2⟩, ⟨61, 2, 4⟩] := by
  refine ⟨rfl, ?_, by decide, by decide⟩
  have hs : sortByStartStep [(⟨60, 0, 2⟩ : Note), ⟨61, 2, 4⟩] = [⟨60, 0, 2⟩, ⟨61, 2, 4⟩] := by
    simp [sortByStartStep, List.mergeSort, melodySortLe]
  unfold MelodyConverter.toTensor
  rw [hs]
  rfl

/-- Claim C5 (amended): with `numSteps 4, minPitch 60, maxPitch 61`, encoding
the notes `[{60,0,2}, {61,2,4}]` produces the per-step label sequence
`[2,0,3,0]`, one-hot expanded to depth 4, and decoding that tensor returns
exactly the identical two notes. -/
theorem melody_example_roundtrip :
    (MelodyConverter.mk 4 60 61).toTensor [⟨60, 0, 2⟩, ⟨61, 2, 4⟩] =
      .ok (List.map (oneHotRow 4) [2, 0, 3, 0]) ∧
    (MelodyConverter.mk 4 60 61).toNoteSequence (List.map (oneHotRow 4) [2, 0, 3, 0]) =
      [⟨60, 0, 2⟩, ⟨61, 2, 4⟩] := by
  constructor
  · have hs : sortByStartStep [(⟨60, 0, 2⟩ : Note), ⟨61, 2, 4⟩] = [⟨60, 0, 2⟩, ⟨61, 2, 4⟩] := by
      simp [sortByStartStep, List.mergeSort, melodySortLe]
    unfold MelodyConverter.toTensor
    rw [hs]
    rfl
  · rfl

/-! ### Further decode-scan infrastructure -/

theorem toNoteSequence_eq (c : MelodyConverter) (oh : List (List Int)) :
    c.toNoteSequence oh =
      (match (oh.map argMax1).foldl (melDecodeStep c) (0, none, []) with
       | (_, some pst, ns) => ns ++ [⟨pst.1, pst.2, (((oh.map argMax1).length : Nat) : Int)⟩]
       | (_, none, ns) => ns) :=
  rfl

theorem melDecodeStep_fst (c : MelodyConverter) (s : Nat) (curr : Option (Int × Int))
    (ns : List Note) (l : Int) : (melDecodeStep c (s, curr, ns) l).1 = s + 1 := by
  unfold melDecodeStep
  split_ifs <;> rcases curr with _ | pst <;> rfl

theorem melDecode_foldl_fst (c : MelodyConverter) (labels : List Int) :
    ∀ (s : Nat) (curr : Option (Int × Int)) (ns : List Note),
    (labels.foldl (melDecodeStep c) (s, curr, ns)).1 = s + labels.length := by
  induction labels with
  | nil =>
    intro s curr ns
    simp
  | cons l ls ih =>
    intro s curr ns
    rw [List.foldl_cons]
    rcases hstep : melDecodeStep c (s, curr, ns) l with ⟨s2, curr2, ns2⟩
    have hs2 : s2 = s + 1 := by
      have hf := melDecodeStep_fst c s curr ns l
      rw [hstep] at hf
      exact hf
    rw [ih s2 curr2 ns2, hs2, List.length_cons]
    omega

/-! ### Claim C9: implicit termination of an open note at the end of the timeline -/

/-- Claim C9: if the per-step argmax label sequence of the input tensor has a
note-on (label at least 2) at step `k` with no later note-off (label 1) and
no later note-on, then `MelodyConverter.toNoteSequence` emits that note last,
with `endStep` equal to the number of steps of the tensor. -/
theorem melody_decode_implicit_termination (c : MelodyConverter) (oh : List (List Int))
    (k : Nat) (hk : k < (oh.map argMax1).length)
    (hon : 2 ≤ (oh.map argMax1)[k])
    (hafter : ∀ (j : Nat) (hj : j < (oh.map argMax1).length), k < j →
      (oh.map argMax1)[j] ≠ NOTE_OFF ∧ (oh.map argMax1)[j] < 2) :
    ∃ ns', c.toNoteSequence oh =
      ns' ++ [⟨(oh.map argMax1)[k] - FIRST_PITCH + c.minPitch, (k : Int), (oh.length : Int)⟩] := by
  rw [toNoteSequence_eq]
  have hsplit : oh.map argMax1 =
      (oh.map argMax1).take k ++ (oh.map argMax1)[k] :: (oh.map argMax1).drop (k + 1) := by
    conv_lhs => rw [← List.take_append_drop k (oh.map argMax1)]
    rw [List.drop_eq_getElem_cons hk]
  have hfold : (oh.map argMax1).foldl (melDecodeStep c) (0, none, []) =
      ((oh.map argMax1).drop (k + 1)).foldl (melDecodeStep c)
        (melDecodeStep c (((oh.map argMax1).take k).foldl (melDecodeStep c) (0, none, []))
          ((oh.map argMax1)[k])) := by
    conv_lhs => rw [hsplit]
    rw [List.foldl_append, List.foldl_cons]
  rcases hst1 : ((oh.map argMax1).take k).foldl (melDecodeStep c) (0, none, []) with ⟨s1, c1, a1⟩
  have hs1 : s1 = k := by
    have hf := melDecode_foldl_fst c ((oh.map argMax1).take k) 0 none []
    rw [hst1] at hf
    simp only [List.length_take] at hf
    have : (List.take k (oh.map argMax1)).foldl (melDecodeStep c) (0, none, []) = (s1, c1, a1) :=
      hst1
    omega
  rw [hfold, hst1, melDecodeStep_noteOn c _ _ _ _ hon, hs1]
  have hzero : ∀ l ∈ (oh.map argMax1).drop (k + 1), l = 0 := by
    intro l hl
    obtain ⟨i, hilen, hig⟩ := List.mem_iff_getElem.mp hl
    have hjlen : k + 1 + i < (oh.map argMax1).length := by
      rw [List.length_drop] at hilen
      omega
    rw [List.getElem_drop] at hig
    have hnn : 0 ≤ (oh.map argMax1)[k + 1 + i] := by
      rw [List.getElem_map]
      exact argMax1_nonneg _
    have hha := hafter (k + 1 + i) hjlen (by omega)
    have h1 := hha.1
    have h2 := hha.2
    simp only [NOTE_OFF] at h1
    omega
  rw [melDecode_foldl_zeros c _ hzero]
  dsimp only
  rw [List.length_map]
  exact ⟨_, rfl⟩

/-- Witness for claim C9 at a concrete input: the single row `[0,0,1]` has
argmax label 2 (a note-on at pitch `minPitch`) and nothing after it, so the
decoded sequence ends with a note closed at the tensor length 1. -/
theorem melody_decode_implicit_termination_witness :
    (2 : Int) ≤ argMax1 [0, 0, 1] ∧
    ∃ ns', (MelodyConverter.mk 1 60 61).toNoteSequence [[0, 0, 1]] =
      ns' ++ [⟨60, 0, 1⟩] :=
  ⟨by decide, by
    obtain ⟨ns', h⟩ := melody_decode_implicit_termination (MelodyConverter.mk 1 60 61)
      [[0, 0, 1]] 0 (by decide) (by decide)
      (by
        intro j hj hkj
        simp only [List.length_map, List.length_cons, List.length_nil] at hj
        omega)
    exact ⟨ns', by
      rw [h]
      rfl⟩⟩

/-! ### Claim C10: the decoded melody is well formed -/

theorem chain'_append_one {α : Type} (R : α → α → Prop) (ns : List α) (x : α)
    (h : List.Chain' R ns) (hlast : ∀ n ∈ ns, R n x) : List.Chain' R (ns ++ [x]) := by
  induction ns with
  | nil => simp
  | cons a as ih =>
    cases as with
    | nil =>
      simp only [List.cons_append, List.nil_append]
      exact List.Chain'.cons (hlast a (by simp)) (by simp)
    | cons b bs =>
      rw [List.cons_append, List.cons_append, List.chain'_cons]
      rw [List.chain'_cons] at h
      exact ⟨h.1, ih h.2 (fun n hn => hlast n (List.mem_cons_of_mem a hn))⟩

theorem chain'_of_forall {α : Type} (R S : α → α → Prop) (P : α → Prop) (l : List α)
    (h : List.Chain' R l) (hp : ∀ a ∈ l, P a) (himp : ∀ a b, R a b → P a → S a b) :
    List.Chain' S l := by
  induction l with
  | nil => simp
  | cons a as ih =>
    cases as with
    | nil => simp
    | cons b bs =>
      rw [List.chain'_cons] at h ⊢
      exact ⟨himp a b h.1 (hp a (by simp)),
        ih h.2 (fun x hx => hp x (List.mem_cons_of_mem a hx))⟩

theorem melDecodeStep_inv (c : MelodyConverter) (l : Int) (s : Nat)
    (curr : Option (Int × Int)) (ns : List Note)
    (hl0 : 0 ≤ l) (hl2 : 2 ≤ l → l ≤ c.maxPitch - c.minPitch + 2)
    (h1 : ∀ n ∈ ns, (c.minPitch ≤ n.pitch ∧ n.pitch ≤ c.maxPitch) ∧
      0 ≤ n.quantizedStartStep ∧ n.quantizedStartStep < n.quantizedEndStep ∧
      n.quantizedEndStep ≤ (s : Int))
    (h2 : List.Chain' (fun a b => a.quantizedEndStep ≤ b.quantizedStartStep) ns)
    (h3 : ∀ p st, curr = some (p, st) →
      (c.minPitch ≤ p ∧ p ≤ c.maxPitch) ∧ 0 ≤ st ∧ st < (s : Int) ∧
      ∀ n ∈ ns, n.quantizedEndStep ≤ st) :
    (∀ n ∈ (melDecodeStep c (s, curr, ns) l).2.2,
      (c.minPitch ≤ n.pitch ∧ n.pitch ≤ c.maxPitch) ∧
      0 ≤ n.quantizedStartStep ∧ n.quantizedStartStep < n.quantizedEndStep ∧
      n.quantizedEndStep ≤ ((s + 1 : Nat) : Int)) ∧
    List.Chain' (fun a b => a.quantizedEndStep ≤ b.quantizedStartStep)
      (melDecodeStep c (s, curr, ns) l).2.2 ∧
    (∀ p st, (melDecodeStep c (s, curr, ns) l).2.1 = some (p, st) →
      (c.minPitch ≤ p ∧ p ≤ c.maxPitch) ∧ 0 ≤ st ∧ st < ((s + 1 : Nat) : Int) ∧
      ∀ n ∈ (melDecodeStep c (s, curr, ns) l).2.2, n.quantizedEndStep ≤ st) := by
  have hmono : ∀ n ∈ ns, (c.minPitch ≤ n.pitch ∧ n.pitch ≤ c.maxPitch) ∧
      0 ≤ n.quantizedStartStep ∧ n.quantizedStartStep < n.quantizedEndStep ∧
      n.quantizedEndStep ≤ ((s + 1 : Nat) : Int) := by
    intro n hn
    have := h1 n hn
    refine ⟨this.1, this.2.1, this.2.2.1, ?_⟩
    have := this.2.2.2
    push_cast
    push_cast at this
    omega
  by_cases hA : l = 0
  · rw [hA, melDecodeStep_zero]
    refine ⟨hmono, h2, ?_⟩
    intro p st hc
    have := h3 p st hc
    refine ⟨this.1, this.2.1, ?_, fun n hn => this.2.2.2 n hn⟩
    have := this.2.2.1
    push_cast
    push_cast at this
    omega
  · by_cases hB : l = NOTE_OFF
    · rw [hB, melDecodeStep_noteOff]
      rcases curr with _ | ⟨p, st⟩
      · dsimp only
        simp only [List.append_nil]
        exact ⟨hmono, h2, fun p st hc => by simp at hc⟩
      · dsimp only
        have hcurr := h3 p st rfl
        refine ⟨?_, ?_, fun q sq hc => by simp at hc⟩
        · intro n hn
          rcases List.mem_append.mp hn with hn' | hn'
          · exact hmono n hn'
          · have hn2 : n = ⟨p, st, (s : Int)⟩ := by simpa using hn'
            subst hn2
            refine ⟨hcurr.1, hcurr.2.1, hcurr.2.2.1, ?_⟩
            push_cast
            omega
        · exact chain'_append_one _ ns _ h2 (fun n hn => hcurr.2.2.2 n hn)
    · have h2l : 2 ≤ l := by
        simp only [NOTE_OFF] at hB
        omega
      rw [melDecodeStep_noteOn c s curr ns l h2l]
      have hpitch : c.minPitch ≤ l - FIRST_PITCH + c.minPitch ∧
          l - FIRST_PITCH + c.minPitch ≤ c.maxPitch := by
        have := hl2 h2l
        simp only [FIRST_PITCH]
        omega
      rcases curr with _ | ⟨p, st⟩
      · dsimp only
        simp only [List.append_nil]
        refine ⟨hmono, h2, ?_⟩
        intro q sq hc
        obtain ⟨rfl, rfl⟩ : l - FIRST_PITCH + c.minPitch = q ∧ (s : Int) = sq := by
          simpa using hc
        refine ⟨hpitch, by positivity, by push_cast; omega, ?_⟩
        intro n hn
        have := h1 n hn
        exact this.2.2.2
      · dsimp only
        have hcurr := h3 p st rfl
        have hprops : ∀ n ∈ ns ++ [(⟨p, st, (s : Int)⟩ : Note)],
            (c.minPitch ≤ n.pitch ∧ n.pitch ≤ c.maxPitch) ∧
            0 ≤ n.quantizedStartStep ∧ n.quantizedStartStep < n.quantizedEndStep ∧
            n.quantizedEndStep ≤ ((s + 1 : Nat) : Int) := by
          intro n hn
          rcases List.mem_append.mp hn with hn' | hn'
          · exact hmono n hn'
          · have hn2 : n = ⟨p, st, (s : Int)⟩ := by simpa using hn'
            subst hn2
            refine ⟨hcurr.1, hcurr.2.1, hcurr.2.2.1, ?_⟩
            push_cast
            omega
        refine ⟨hprops, chain'_append_one _ ns _ h2 (fun n hn => hcurr.2.2.2 n hn), ?_⟩
        intro q sq hc
        obtain ⟨rfl, rfl⟩ : l - FIRST_PITCH + c.minPitch = q ∧ (s : Int) = sq := by
          simpa using hc
        refine ⟨hpitch, by positivity, by push_cast; omega, ?_⟩
        intro n hn
        rcases List.mem_append.mp hn with hn' | hn'
        · have ha := h1 n hn'
          have hb := hcurr.2.2.2 n hn'
          have := hcurr.2.2.1
          omega
        · have hn2 : n = ⟨p, st, (s : Int)⟩ := by simpa using hn'
          subst hn2
          simp

theorem melDecode_foldl_inv (c : MelodyConverter) (labels : List Int)
    (hl : ∀ l ∈ labels, 0 ≤ l ∧ (2 ≤ l → l ≤ c.maxPitch - c.minPitch + 2)) :
    ∀ (s : Nat) (curr : Option (Int × Int)) (ns : List Note),
    (∀ n ∈ ns, (c.minPitch ≤ n.pitch ∧ n.pitch ≤ c.maxPitch) ∧
      0 ≤ n.quantizedStartStep ∧ n.quantizedStartStep < n.quantizedEndStep ∧
      n.quantizedEndStep ≤ (s : Int)) →
    List.Chain' (fun a b => a.quantizedEndStep ≤ b.quantizedStartStep) ns →
    (∀ p st, curr = some (p, st) →
      (c.minPitch ≤ p ∧ p ≤ c.maxPitch) ∧ 0 ≤ st ∧ st < (s : Int) ∧
      ∀ n ∈ ns, n.quantizedEndStep ≤ st) →
    (∀ n ∈ (labels.foldl (melDecodeStep c) (s, curr, ns)).2.2,
      (c.minPitch ≤ n.pitch ∧ n.pitch ≤ c.maxPitch) ∧
      0 ≤ n.quantizedStartStep ∧ n.quantizedStartStep < n.quantizedEndStep ∧
      n.quantizedEndStep ≤ (((labels.foldl (melDecodeStep c) (s, curr, ns)).1 : Nat) : Int)) ∧
    List.Chain' (fun a b => a.quantizedEndStep ≤ b.quantizedStartStep)
      (labels.foldl (melDecodeStep c) (s, curr, ns)).2.2 ∧
    (∀ p st, (labels.foldl (melDecodeStep c) (s, curr, ns)).2.1 = some (p, st) →
      (c.minPitch ≤ p ∧ p ≤ c.maxPitch) ∧ 0 ≤ st ∧
      st < (((labels.foldl (melDecodeStep c) (s, curr, ns)).1 : Nat) : Int) ∧
      ∀ n ∈ (labels.foldl (melDecodeStep c) (s, curr, ns)).2.2, n.quantizedEndStep ≤ st) := by
  induction labels with
  | nil =>
    intro s curr ns h1 h2 h3
    exact ⟨h1, h2, h3⟩
  | cons l ls ih =>
    intro s curr ns h1 h2 h3
    have hll := hl l (by simp)
    have hstep := melDecodeStep_inv c l s curr ns hll.1 hll.2 h1 h2 h3
    rw [List.foldl_cons]
    rcases hst : melDecodeStep c (s, curr, ns) l with ⟨s2, curr2, ns2⟩
    have hs2 : s2 = s + 1 := by
      have hf := melDecodeStep_fst c s curr ns l
      rw [hst] at hf
      exact hf
    rw [hst] at hstep
    subst hs2
    exact ih (fun x hx => hl x (List.mem_cons_of_mem l hx)) (s + 1) curr2 ns2
      hstep.1 hstep.2.1 hstep.2.2

/-- Claim C10: for every input tensor of the declared shape (rows of width
`depth`), the sequence decoded by `MelodyConverter.toNoteSequence` is well
formed: every note has its pitch within `[minPitch, maxPitch]`, a
non-negative start step, and positive duration; consecutive notes do not
overlap; and start steps are strictly ascending — so the decoded sequence
satisfies the preconditions of `toTensor`. -/
theorem melody_decode_wellformed (c : MelodyConverter) (oh : List (List Int))
    (hshape : ∀ row ∈ oh, row.length = c.depth.toNat) :
    (∀ n ∈ c.toNoteSequence oh,
      c.minPitch ≤ n.pitch ∧ n.pitch ≤ c.maxPitch ∧
      0 ≤ n.quantizedStartStep ∧ n.quantizedStartStep < n.quantizedEndStep) ∧
    List.Chain' (fun a b => a.quantizedEndStep ≤ b.quantizedStartStep)
      (c.toNoteSequence oh) ∧
    List.Chain' (fun a b => a.quantizedStartStep < b.quantizedStartStep)
      (c.toNoteSequence oh) := by
  have hl : ∀ l ∈ oh.map argMax1, 0 ≤ l ∧ (2 ≤ l → l ≤ c.maxPitch - c.minPitch + 2) := by
    intro l hml
    obtain ⟨row, hrow, rfl⟩ := List.mem_map.mp hml
    refine ⟨argMax1_nonneg row, fun h2 => ?_⟩
    have hne : row ≠ [] := by
      intro hcon
      rw [hcon] at h2
      simp only [argMax1] at h2
      omega
    have hlt := argMax1_lt_length row hne
    rw [hshape row hrow] at hlt
    unfold MelodyConverter.depth at hlt
    omega
  have hinv := melDecode_foldl_inv c (oh.map argMax1) hl 0 none []
    (by simp) (by simp) (by
      intro p st h
      simp at h)
  have hfst := melDecode_foldl_fst c (oh.map argMax1) 0 none []
  rw [toNoteSequence_eq]
  rcases hres : (oh.map argMax1).foldl (melDecodeStep c) (0, none, []) with ⟨sf, cf, nf⟩
  rw [hres] at hinv hfst
  simp only at hfst
  obtain ⟨hA, hB, hC⟩ := hinv
  rcases cf with _ | ⟨p, st⟩
  · dsimp only
    refine ⟨fun n hn => ?_, hB, ?_⟩
    · have := hA n hn
      exact ⟨this.1.1, this.1.2, this.2.1, this.2.2.1⟩
    · exact chain'_of_forall _ _
        (fun n => n.quantizedStartStep < n.quantizedEndStep) nf hB
        (fun n hn => (hA n hn).2.2.1) (fun a b hR hP => by omega)
  · dsimp only
    have hcurr := hC p st rfl
    have hstlen : st < (((oh.map argMax1).length : Nat) : Int) := by
      have := hcurr.2.2.1
      omega
    have hprops : ∀ n ∈ nf ++ [(⟨p, st, (((oh.map argMax1).length : Nat) : Int)⟩ : Note)],
        (c.minPitch ≤ n.pitch ∧ n.pitch ≤ c.maxPitch) ∧
        0 ≤ n.quantizedStartStep ∧ n.quantizedStartStep < n.quantizedEndStep := by
      intro n hn
      rcases List.mem_append.mp hn with hn' | hn'
      · have := hA n hn'
        exact ⟨this.1, this.2.1, this.2.2.1⟩
      · have hn2 : n = ⟨p, st, (((oh.map argMax1).length : Nat) : Int)⟩ := by
          simpa using hn'
        subst hn2
        exact ⟨hcurr.1, hcurr.2.1, hstlen⟩
    have hchain : List.Chain' (fun a b => a.quantizedEndStep ≤ b.quantizedStartStep)
        (nf ++ [(⟨p, st, (((oh.map argMax1).length : Nat) : Int)⟩ : Note)]) :=
      chain'_append_one _ nf _ hB (fun n hn => hcurr.2.2.2 n hn)
    refine ⟨fun n hn => ?_, hchain, ?_⟩
    · have := hprops n hn
      exact ⟨this.1.1, this.1.2, this.2.1, this.2.2⟩
    · exact chain'_of_forall _ _
        (fun n => n.quantizedStartStep < n.quantizedEndStep) _ hchain
        (fun n hn => (hprops n hn).2.2) (fun a b hR hP => by omega)

/-- Witness for claim C10 at a concrete well-shaped tensor. -/
theorem melody_decode_wellformed_witness :
    (∀ row ∈ ([[0, 0, 1, 0], [0, 1, 0, 0]] : List (List Int)),
      row.length = (MelodyConverter.mk 2 60 61).depth.toNat) ∧
    ((∀ n ∈ (MelodyConverter.mk 2 60 61).toNoteSequence [[0, 0, 1, 0], [0, 1, 0, 0]],
      (60 : Int) ≤ n.pitch ∧ n.pitch ≤ 61 ∧
      0 ≤ n.quantizedStartStep ∧ n.quantizedStartStep < n.quantizedEndStep) ∧
    List.Chain' (fun a b => a.quantizedEndStep ≤ b.quantizedStartStep)
      ((MelodyConverter.mk 2 60 61).toNoteSequence [[0, 0, 1, 0], [0, 1, 0, 0]]) ∧
    List.Chain' (fun a b => a.quantizedStartStep < b.quantizedStartStep)
      ((MelodyConverter.mk 2 60 61).toNoteSequence [[0, 0, 1, 0], [0, 1, 0, 0]])) :=
  ⟨by decide,
    melody_decode_wellformed (MelodyConverter.mk 2 60 61)
      [[0, 0, 1, 0], [0, 1, 0, 0]] (by decide)⟩

/-! ### Claims C7 and C8: the two encode guards and their firing order -/

theorem melWriteNotes_ok_monoOKb (c : MelodyConverter) (notes : List Note) :
    ∀ (mel : List Int) (lastEnd : Int) (mel' : List Int),
    melWriteNotes c notes mel lastEnd = .ok mel' → monoOKb lastEnd notes = true := by
  induction notes with
  | nil =>
    intro _ _ _ _
    rfl
  | cons n rest ih =>
    intro mel lastEnd mel' hrun
    rw [melWriteNotes] at hrun
    split_ifs at hrun with hA hB
    simp only [monoOKb, Bool.and_eq_true, decide_eq_true_eq]
    exact ⟨by omega, ih _ _ _ hrun⟩

theorem melWriteNotes_error_msg (c : MelodyConverter) (notes : List Note) :
    ∀ (mel : List Int) (lastEnd : Int) (e : String),
    (∀ n ∈ notes, c.minPitch ≤ n.pitch ∧ n.pitch ≤ c.maxPitch) →
    melWriteNotes c notes mel lastEnd = .error e →
    e = "`NoteSequence` is not monophonic." := by
  induction notes with
  | nil =>
    intro _ _ _ _ h
    exact absurd h (by simp [melWriteNotes])
  | cons n rest ih =>
    intro mel lastEnd e hpr hrun
    rw [melWriteNotes] at hrun
    split_ifs at hrun with hA hB
    · injection hrun with h
      exact h.symm
    · have := hpr n (by simp)
      exact absurd hB (by omega)
    · exact ih _ _ _ (fun x hx => hpr x (List.mem_cons_of_mem n hx)) hrun

theorem melWriteNotes_first_bad_pitch (c : MelodyConverter) (notes : List Note) :
    ∀ (mel : List Int) (lastEnd : Int),
    monoOKb lastEnd notes = true →
    (∃ n ∈ notes, n.pitch < c.minPitch ∨ n.pitch > c.maxPitch) →
    ∃ p : Int, (p < c.minPitch ∨ p > c.maxPitch) ∧
      melWriteNotes c notes mel lastEnd =
        .error ("`NoteSequence` has a pitch outside of the valid range: " ++ toString p) := by
  induction notes with
  | nil =>
    intro _ _ _ hbad
    obtain ⟨n, hn, _⟩ := hbad
    cases hn
  | cons n rest ih =>
    intro mel lastEnd hmono hbad
    simp only [monoOKb, Bool.and_eq_true, decide_eq_true_eq] at hmono
    rw [melWriteNotes, if_neg (by omega : ¬ n.quantizedStartStep < lastEnd)]
    by_cases hb : n.pitch < c.minPitch ∨ n.pitch > c.maxPitch
    · exact ⟨n.pitch, hb, by rw [if_pos hb]⟩
    · rw [if_neg hb]
      apply ih _ _ hmono.2
      obtain ⟨m, hm, hmp⟩ := hbad
      rcases List.mem_cons.mp hm with rfl | hm'
      · exact absurd hmp hb
      · exact ⟨m, hm', hmp⟩

/-- Claim C7 (amended): if every note's pitch is within the configured range
and the sorted notes contain a pair where a later note starts strictly before
an earlier note ends, then `MelodyConverter.toTensor` fails with the
`NotMonophonic` error and returns no tensor. -/
theorem melody_monophonic_guard (c : MelodyConverter) (notes : List Note)
    (hpr : ∀ n ∈ notes, c.minPitch ≤ n.pitch ∧ n.pitch ≤ c.maxPitch)
    (hviol : ∃ (i j : Nat) (a b : Note), i < j ∧
      (sortByStartStep notes)[i]? = some a ∧ (sortByStartStep notes)[j]? = some b ∧
      b.quantizedStartStep < a.quantizedEndStep) :
    c.toTensor notes = .error "`NoteSequence` is not monophonic." := by
  unfold MelodyConverter.toTensor
  cases hrun : melWriteNotes c (sortByStartStep notes) (List.replicate c.numSteps 0) (-1) with
  | error e =>
    have he := melWriteNotes_error_msg c (sortByStartStep notes) _ _ e
      (fun n hn => hpr n ((sortByStartStep_perm notes).mem_iff.mp hn)) hrun
    rw [he]
    rfl
  | ok mel =>
    exfalso
    have hmono := melWriteNotes_ok_monoOKb c _ _ _ _ hrun
    have hchain := monoOKb_chain' _ _ hmono
    have hsorted := sortByStartStep_sorted notes
    obtain ⟨i, j, a, b, hij, hia, hjb, hlt⟩ := hviol
    obtain ⟨hilen, hai⟩ := List.getElem?_eq_some_iff.mp hia
    obtain ⟨hjlen, hbj⟩ := List.getElem?_eq_some_iff.mp hjb
    have hi1 : i + 1 < (sortByStartStep notes).length := by omega
    have hadj := List.chain'_iff_get.mp hchain i (by omega)
    have hle2 : ((sortByStartStep notes).get ⟨i + 1, hi1⟩).quantizedStartStep ≤
        ((sortByStartStep notes).get ⟨j, hjlen⟩).quantizedStartStep := by
      rcases Nat.lt_or_ge (i + 1) j with hlt2 | hge
      · exact List.pairwise_iff_getElem.mp hsorted (i + 1) j hi1 hjlen hlt2
      · have : i + 1 = j := by omega
        subst this
        exact le_rfl
    have hga : (sortByStartStep notes).get ⟨i, by omega⟩ = a := hai
    have hgb : (sortByStartStep notes).get ⟨j, hjlen⟩ = b := hbj
    rw [hga] at hadj
    rw [hgb] at hle2
    omega

/-- Counterexample to claim C7 as stated: the two-note sequence
`[{100,0,2}, {60,1,3}]` (already in sorted order) has the second note
starting before the first ends, but the first note's out-of-range pitch 100
is checked first, so `toTensor` fails with the pitch-range error, not with
`NotMonophonic`. -/
theorem melody_monophonic_guard_cex :
    sortByStartStep [⟨100, 0, 2⟩, ⟨60, 1, 3⟩] = [⟨100, 0, 2⟩, ⟨60, 1, 3⟩] ∧
    ((1 : Int) < 2) ∧
    (MelodyConverter.mk 4 60 61).toTensor [⟨100, 0, 2⟩, ⟨60, 1, 3⟩] =
      .error "`NoteSequence` has a pitch outside of the valid range: 100" ∧
    "`NoteSequence` has a pitch outside of the valid range: 100" ≠
      "`NoteSequence` is not monophonic." := by
  refine ⟨?_, by decide, ?_, by decide⟩
  · simp [sortByStartStep, List.mergeSort, melodySortLe]
  · have hs : sortByStartStep [(⟨100, 0, 2⟩ : Note), ⟨60, 1, 3⟩] = [⟨100, 0, 2⟩, ⟨60, 1, 3⟩] := by
      simp [sortByStartStep, List.mergeSort, melodySortLe]
    unfold MelodyConverter.toTensor
    rw [hs]
    rfl

/-- Witness for the amended claim C7 at a concrete overlapping input. -/
theorem melody_monophonic_guard_witness :
    (∀ n ∈ ([⟨60, 0, 2⟩, ⟨60, 1, 3⟩] : List Note), (60 : Int) ≤ n.pitch ∧ n.pitch ≤ 61) ∧
    (MelodyConverter.mk 4 60 61).toTensor [⟨60, 0, 2⟩, ⟨60, 1, 3⟩] =
      .error "`NoteSequence` is not monophonic." :=
  ⟨by decide,
    melody_monophonic_guard (MelodyConverter.mk 4 60 61) [⟨60, 0, 2⟩, ⟨60, 1, 3⟩]
      (by decide)
      ⟨0, 1, ⟨60, 0, 2⟩, ⟨60, 1, 3⟩, by omega,
        by simp [sortByStartStep, List.mergeSort, melodySortLe],
        by simp [sortByStartStep, List.mergeSort, melodySortLe],
        by decide⟩⟩

/-- Claim C8 (amended): if the sorted notes pass every monophony check and
some note's pitch lies outside `[minPitch, maxPitch]`, then
`MelodyConverter.toTensor` fails with the pitch-range (`OutOfRange`) error
for the first such pitch and returns no tensor. -/
theorem melody_range_guard (c : MelodyConverter) (notes : List Note)
    (hmono : monoOKb (-1) (sortByStartStep notes) = true)
    (hbad : ∃ n ∈ notes, n.pitch < c.minPitch ∨ n.pitch > c.maxPitch) :
    ∃ p : Int, (p < c.minPitch ∨ p > c.maxPitch) ∧
      c.toTensor notes =
        .error ("`NoteSequence` has a pitch outside of the valid range: " ++ toString p) := by
  unfold MelodyConverter.toTensor
  obtain ⟨p, hp, hrun⟩ := melWriteNotes_first_bad_pitch c (sortByStartStep notes)
    (List.replicate c.numSteps 0) (-1) hmono
    (by
      obtain ⟨n, hn, h⟩ := hbad
      exact ⟨n, (sortByStartStep_perm notes).mem_iff.mpr hn, h⟩)
  exact ⟨p, hp, by
    rw [hrun]
    rfl⟩

/-- Counterexample to claim C8 as stated: the sequence
`[{60,0,5}, {100,1,2}]` contains the out-of-range pitch 100, but the second
note's monophony check (1 < 5) fires before its range check, so `toTensor`
fails with `NotMonophonic`, not with an `OutOfRange` error. -/
theorem melody_range_guard_cex :
    ((100 : Int) > 61) ∧
    (MelodyConverter.mk 8 60 61).toTensor [⟨60, 0, 5⟩, ⟨100, 1, 2⟩] =
      .error "`NoteSequence` is not monophonic." ∧
    "`NoteSequence` is not monophonic." ≠
      "`NoteSequence` has a pitch outside of the valid range: " ++ toString (100 : Int) := by
  refine ⟨by decide, ?_, by decide⟩
  have hs : sortByStartStep [(⟨60, 0, 5⟩ : Note), ⟨100, 1, 2⟩] = [⟨60, 0, 5⟩, ⟨100, 1, 2⟩] := by
    simp [sortByStartStep, List.mergeSort, melodySortLe]
  unfold MelodyConverter.toTensor
  rw [hs]
  rfl

/-- Witness for the amended claim C8 at a concrete input. -/
theorem melody_range_guard_witness :
    (∃ n ∈ ([⟨100, 0, 2⟩] : List Note), n.pitch < 60 ∨ n.pitch > 61) ∧
    ∃ p : Int, (p < 60 ∨ p > 61) ∧
      (MelodyConverter.mk 4 60 61).toTensor [⟨100, 0, 2⟩] =
        .error ("`NoteSequence` has a pitch outside of the valid range: " ++ toString p) :=
  ⟨by decide,
    melody_range_guard (MelodyConverter.mk 4 60 61) [⟨100, 0, 2⟩]
      (by simp [sortByStartStep, List.mergeSort, monoOKb])
      (by decide)⟩

/-! ### Pointwise characterization of the drum encode -/

theorem length_setRow (rows : List (List Int)) (i : Int) (f : List Int → List Int) :
    (setRow rows i f).length = rows.length := by
  unfold setRow
  split
  · exact length_listModify f i.toNat rows
  · rfl

theorem getElem?_setRow (rows : List (List Int)) (i : Int) (f : List Int → List Int) (r : Nat) :
    (setRow rows i f)[r]? = if i = (r : Int) then (rows[r]?).map f else rows[r]? := by
  unfold setRow
  split_ifs with h0 h1 h1
  · rw [getElem?_listModify]
    have ht : i.toNat = r := by omega
    simp [ht]
  · rw [getElem?_listModify]
    have ht : ¬ i.toNat = r := by omega
    simp [ht]
  · exfalso
    omega
  · rfl

theorem length_drumStep (dc : DrumsConverter) (rows : List (List Int)) (note : Note) :
    (drumStep dc rows note).length = rows.length := by
  unfold drumStep
  cases pitchToClass dc.pitchClasses note.pitch with
  | none => simp [length_setRow]
  | some cIdx => simp [length_setRow]

theorem pitchToClass_lt (classes : List (List Int)) (p : Int) (c : Nat)
    (h : pitchToClass classes p = some c) : c < classes.length := by
  unfold pitchToClass at h
  obtain ⟨ic, hic, hfst⟩ := Option.map_eq_some'.mp h
  have hmem : ic ∈ (classes.enum.filter (fun x => x.2.contains p)) :=
    List.mem_of_mem_getLast? hic
  have hmem2 : ic ∈ classes.enum := (List.mem_filter.mp hmem).1
  rcases ic with ⟨i, cls⟩
  have := List.mem_enum hmem2
  simp only at hfst
  omega

theorem set_row_map (g : Nat → Int) (C c : Nat) (v : Int) (hc : c < C) (tail : List Int) :
    ((List.range C).map g ++ tail).set c v =
      (List.range C).map (fun k => if k = c then v else g k) ++ tail := by
  apply List.ext_getElem?
  intro j
  rw [List.getElem?_set]
  by_cases hjc : c = j
  · subst hjc
    rw [if_pos rfl,
      if_pos (by
        simp only [List.length_append, List.length_map, List.length_range]
        omega)]
    rw [List.getElem?_append]
    simp only [List.length_map, List.length_range]
    rw [if_pos hc, List.getElem?_map, List.getElem?_range hc]
    simp
  · rw [if_neg hjc, List.getElem?_append, List.getElem?_append]
    simp only [List.length_map, List.length_range]
    by_cases hj : j < C
    · rw [if_pos hj, if_pos hj, List.getElem?_map, List.getElem?_map, List.getElem?_range hj]
      simp [Ne.symm hjc]
    · rw [if_neg hj, if_neg hj]

theorem set_last_row (g : Nat → Int) (C : Nat) (v x : Int) :
    ((List.range C).map g ++ [x]).set C v = (List.range C).map g ++ [v] := by
  apply List.ext_getElem?
  intro j
  rw [List.getElem?_set]
  by_cases hjc : C = j
  · subst hjc
    rw [if_pos rfl,
      if_pos (by
        simp only [List.length_append, List.length_map, List.length_range,
          List.length_singleton]
        omega)]
    rw [List.getElem?_append]
    simp only [List.length_map, List.length_range]
    rw [if_neg (by omega)]
    simp
  · rw [if_neg hjc, List.getElem?_append, List.getElem?_append]
    simp only [List.length_map, List.length_range]
    by_cases hj : j < C
    · rw [if_pos hj, if_pos hj]
    · rw [if_neg hj, if_neg hj]
      have hne : j - C ≠ 0 := by omega
      cases hd : j - C with
      | zero => exact absurd hd hne
      | succ m => simp

theorem drumStep_char (dc : DrumsConverter) (note : Note) (g : Nat → Int) (b : Int)
    (rows : List (List Int)) (r : Nat)
    (hr : rows[r]? = some ((List.range dc.pitchClasses.length).map g ++ [b])) :
    (drumStep dc rows note)[r]? = some
      ((List.range dc.pitchClasses.length).map (fun k =>
        if note.quantizedStartStep = (r : Int) ∧
          pitchToClass dc.pitchClasses note.pitch = some k then (1 : Int) else g k) ++
      [if note.quantizedStartStep = (r : Int) then (0 : Int) else b]) := by
  unfold drumStep
  cases hpc : pitchToClass dc.pitchClasses note.pitch with
  | some cIdx =>
    have hclt := pitchToClass_lt dc.pitchClasses note.pitch cIdx hpc
    dsimp only
    rw [getElem?_setRow, getElem?_setRow]
    by_cases hs : note.quantizedStartStep = (r : Int)
    · rw [if_pos hs, if_pos hs, hr]
      simp only [Option.map_some']
      rw [set_row_map g dc.pitchClasses.length cIdx 1 hclt [b]]
      rw [set_last_row]
      congr 2
      · apply List.map_congr_left
        intro k hk
        by_cases hkc : k = cIdx
        · subst hkc
          rw [if_pos rfl, if_pos ⟨hs, rfl⟩]
        · rw [if_neg hkc, if_neg (fun hcon => hkc (Option.some_inj.mp hcon.2).symm)]
      · rw [if_pos hs]
    · rw [if_neg hs, if_neg hs, hr]
      congr 2
      · apply List.map_congr_left
        intro k hk
        rw [if_neg (fun hcon => hs hcon.1)]
      · rw [if_neg hs]
  | none =>
    dsimp only
    rw [getElem?_setRow]
    by_cases hs : note.quantizedStartStep = (r : Int)
    · rw [if_pos hs, hr]
      simp only [Option.map_some']
      rw [set_last_row]
      congr 2
      · apply List.map_congr_left
        intro k hk
        rw [if_neg (fun hcon => Option.noConfusion hcon.2)]
      · rw [if_pos hs]
    · rw [if_neg hs, hr]
      congr 2
      · apply List.map_congr_left
        intro k hk
        rw [if_neg (fun hcon => hs hcon.1)]
      · rw [if_neg hs]

theorem drumFold_char (dc : DrumsConverter) (notes : List Note) :
    ∀ (g : Nat → Nat → Int) (b : Nat → Int) (rows : List (List Int)),
    rows.length = dc.numSteps →
    (∀ r : Nat, r < dc.numSteps →
      rows[r]? = some ((List.range dc.pitchClasses.length).map (g r) ++ [b r])) →
    (notes.foldl (drumStep dc) rows).length = dc.numSteps ∧
    ∀ r : Nat, r < dc.numSteps → (notes.foldl (drumStep dc) rows)[r]? = some
      ((List.range dc.pitchClasses.length).map (fun k =>
        if ∃ n ∈ notes, n.quantizedStartStep = (r : Int) ∧
          pitchToClass dc.pitchClasses n.pitch = some k then (1 : Int) else g r k) ++
      [if ∃ n ∈ notes, n.quantizedStartStep = (r : Int) then (0 : Int) else b r]) := by
  induction notes with
  | nil =>
    intro g b rows hlen hrows
    refine ⟨hlen, fun r hr => ?_⟩
    rw [List.foldl_nil, hrows r hr]
    simp
  | cons n rest ih =>
    intro g b rows hlen hrows
    rw [List.foldl_cons]
    have hlen' : (drumStep dc rows n).length = dc.numSteps := by
      rw [length_drumStep]
      exact hlen
    have hrows' : ∀ r : Nat, r < dc.numSteps → (drumStep dc rows n)[r]? = some
        ((List.range dc.pitchClasses.length).map (fun k =>
          if n.quantizedStartStep = (r : Int) ∧
            pitchToClass dc.pitchClasses n.pitch = some k then (1 : Int) else g r k) ++
        [if n.quantizedStartStep = (r : Int) then (0 : Int) else b r]) :=
      fun r hr => drumStep_char dc n (g r) (b r) rows r (hrows r hr)
    obtain ⟨hl2, hp2⟩ := ih
      (fun r k => if n.quantizedStartStep = (r : Int) ∧
        pitchToClass dc.pitchClasses n.pitch = some k then (1 : Int) else g r k)
      (fun r => if n.quantizedStartStep = (r : Int) then (0 : Int) else b r)
      (drumStep dc rows n) hlen' hrows'
    refine ⟨hl2, fun r hr => ?_⟩
    rw [hp2 r hr]
    congr 2
    · apply List.map_congr_left
      intro k hk
      by_cases h1 : ∃ m ∈ rest, m.quantizedStartStep = (r : Int) ∧
          pitchToClass dc.pitchClasses m.pitch = some k
      · rw [if_pos h1, if_pos (by
          obtain ⟨m, hm, hmp⟩ := h1
          exact ⟨m, List.mem_cons_of_mem n hm, hmp⟩)]
      · rw [if_neg h1]
        by_cases h2 : n.quantizedStartStep = (r : Int) ∧
            pitchToClass dc.pitchClasses n.pitch = some k
        · rw [if_pos h2, if_pos ⟨n, by simp, h2⟩]
        · rw [if_neg h2, if_neg (by
            intro hcon
            obtain ⟨m, hm, hmp⟩ := hcon
            rcases List.mem_cons.mp hm with rfl | hm'
            · exact h2 hmp
            · exact h1 ⟨m, hm', hmp⟩)]
    · by_cases h1 : ∃ m ∈ rest, m.quantizedStartStep = (r : Int)
      · rw [if_pos h1, if_pos (by
          obtain ⟨m, hm, hmp⟩ := h1
          exact ⟨m, List.mem_cons_of_mem n hm, hmp⟩)]
      · rw [if_neg h1]
        by_cases h2 : n.quantizedStartStep = (r : Int)
        · rw [if_pos h2, if_pos ⟨n, by simp, h2⟩]
        · rw [if_neg h2, if_neg (by
            intro hcon
            obtain ⟨m, hm, hmp⟩ := hcon
            rcases List.mem_cons.mp hm with rfl | hm'
            · exact h2 hmp
            · exact h1 ⟨m, hm', hmp⟩)]

theorem drums_toTensor_char (dc : DrumsConverter) (notes : List Note) :
    (dc.toTensor notes).length = dc.numSteps ∧
    ∀ r : Nat, r < dc.numSteps → (dc.toTensor notes)[r]? = some
      ((List.range dc.pitchClasses.length).map (fun k =>
        if ∃ n ∈ notes, n.quantizedStartStep = (r : Int) ∧
          pitchToClass dc.pitchClasses n.pitch = some k then (1 : Int) else 0) ++
      [if ∃ n ∈ notes, n.quantizedStartStep = (r : Int) then (0 : Int) else 1]) := by
  unfold DrumsConverter.toTensor
  exact drumFold_char dc notes (fun _ _ => 0) (fun _ => 1)
    (List.replicate dc.numSteps (List.replicate dc.pitchClasses.length 0 ++ [1]))
    (by simp)
    (fun r hr => by
      rw [List.getElem?_replicate, if_pos hr]
      congr 2
      rw [List.range_eq_range',
        map_range'_eq_replicate (fun _ => (0 : Int)) 0 0 dc.pitchClasses.length
          (fun j hj1 hj2 => rfl)])

theorem getD_row_class (f : Nat → Int) (C : Nat) (u : Int) (k : Nat) (hk : k < C) :
    (((List.range C).map f) ++ [u]).getD k 0 = f k := by
  rw [List.getD_eq_getElem?_getD, List.getElem?_append]
  simp only [List.length_map, List.length_range]
  rw [if_pos hk, List.getElem?_map, List.getElem?_range hk]
  rfl

theorem getD_row_nor (f : Nat → Int) (C : Nat) (u : Int) :
    (((List.range C).map f) ++ [u]).getD C 0 = u := by
  rw [List.getD_eq_getElem?_getD, List.getElem?_append]
  simp only [List.length_map, List.length_range]
  rw [if_neg (by omega)]
  simp

/-- C6 (amended): for a note sequence all of whose pitches are registered in
the pitch-class table, every row of the drum-roll tensor produced by
`DrumsConverter.toTensor` satisfies the NOR relationship: its final column is
1 exactly when all of its class columns are 0.  (With an unregistered pitch
the relationship fails: the class-cell write is dropped while the final
column of the step is still cleared.) -/
theorem drums_nor_column (dc : DrumsConverter) (notes : List Note)
    (hmap : ∀ n ∈ notes, (pitchToClass dc.pitchClasses n.pitch).isSome) :
    ∀ (r : Nat) (row : List Int), (dc.toTensor notes)[r]? = some row →
      (row.getD dc.pitchClasses.length 0 = 1 ↔
        ∀ cIdx, cIdx < dc.pitchClasses.length → row.getD cIdx 0 = 0) := by
  obtain ⟨hlen, hchar⟩ := drums_toTensor_char dc notes
  intro r row hrow
  have hr : r < dc.numSteps := by
    by_contra hge
    rw [List.getElem?_eq_none (by omega)] at hrow
    exact Option.noConfusion hrow
  rw [hchar r hr] at hrow
  have hrow2 := (Option.some_inj.mp hrow).symm
  subst hrow2
  rw [getD_row_nor]
  constructor
  · intro h1 cIdx hc
    rw [getD_row_class _ _ _ _ hc]
    by_cases hq : ∃ n ∈ notes, n.quantizedStartStep = (r : Int)
    · rw [if_pos hq] at h1
      exact absurd h1 (by decide)
    · rw [if_neg (fun hcon => hq ⟨hcon.choose, hcon.choose_spec.1, hcon.choose_spec.2.1⟩)]
  · intro h2
    by_cases hq : ∃ n ∈ notes, n.quantizedStartStep = (r : Int)
    · exfalso
      obtain ⟨n, hn, hs⟩ := hq
      obtain ⟨c, hc⟩ := Option.isSome_iff_exists.mp (hmap n hn)
      have hclt := pitchToClass_lt dc.pitchClasses n.pitch c hc
      have := h2 c hclt
      rw [getD_row_class _ _ _ _ hclt, if_pos ⟨n, hn, hs, hc⟩] at this
      exact absurd this (by decide)
    · rw [if_neg hq]

/-- Counterexample to the NOR-column claim as stated for arbitrary input: the
pitch 40 is in no class of the table [[36], [38]], so its class-cell write is
dropped while the final column of step 0 is still cleared, leaving a row
whose class columns are all 0 but whose final column is 0, not 1. -/
theorem drums_nor_cex :
    pitchToClass [[36], [38]] 40 = none ∧
    DrumsConverter.toTensor ⟨1, [[36], [38]]⟩ [⟨40, 0, 1⟩] = [[0, 0, 0]] ∧
    ¬ (∀ (r : Nat) (row : List Int),
        (DrumsConverter.toTensor ⟨1, [[36], [38]]⟩ [⟨40, 0, 1⟩])[r]? = some row →
        (row.getD 2 0 = 1 ↔ ∀ cIdx, cIdx < 2 → row.getD cIdx 0 = 0)) :=
  ⟨by decide, by decide, fun h => absurd (h 0 [0, 0, 0] (by decide)) (by decide)⟩

theorem drums_nor_column_witness :
    (∀ n ∈ [(⟨38, 1, 2⟩ : Note)], (pitchToClass [[36], [38]] n.pitch).isSome) ∧
    (∀ (r : Nat) (row : List Int),
      (DrumsConverter.toTensor ⟨2, [[36], [38]]⟩ [⟨38, 1, 2⟩])[r]? = some row →
      (row.getD 2 0 = 1 ↔ ∀ cIdx, cIdx < 2 → row.getD cIdx 0 = 0)) :=
  ⟨by decide, drums_nor_column ⟨2, [[36], [38]]⟩ [⟨38, 1, 2⟩] (by decide)⟩

/-- C3 (amended): the drum encode does not fail on a pitch missing from the
pitch-class table.  The lookup yields `undefined`, the class-cell write is
silently dropped, and the final column of the note's step is still cleared:
when every note of the sequence is unregistered, `DrumsConverter.toTensor`
returns the tensor whose class columns are all 0 and whose final column is 0
exactly at the steps where some note starts. -/
theorem drums_unknown_pitch_dropped (dc : DrumsConverter) (notes : List Note)
    (hun : ∀ n ∈ notes, pitchToClass dc.pitchClasses n.pitch = none) :
    dc.toTensor notes = (List.range dc.numSteps).map (fun (r : Nat) =>
      List.replicate dc.pitchClasses.length (0 : Int) ++
        [if ∃ n ∈ notes, n.quantizedStartStep = (r : Int) then (0 : Int) else 1]) := by
  obtain ⟨hlen, hchar⟩ := drums_toTensor_char dc notes
  apply List.ext_getElem?
  intro r
  by_cases hr : r < dc.numSteps
  · rw [hchar r hr, List.getElem?_map, List.getElem?_range hr]
    simp only [Option.map_some']
    congr 2
    rw [List.map_congr_left (fun k hk => ?_), List.range_eq_range',
      map_range'_eq_replicate (fun _ => (0 : Int)) 0 0 dc.pitchClasses.length
        (fun j hj1 hj2 => rfl)]
    rw [if_neg (fun hcon => ?_)]
    obtain ⟨n, hn, hs, hp⟩ := hcon
    rw [hun n hn] at hp
    exact Option.noConfusion hp
  · rw [List.getElem?_eq_none (by omega),
      List.getElem?_eq_none (by simp only [List.length_map, List.length_range]; omega)]

/-- Counterexample to the claim that an unregistered pitch makes the drum
encode fail: pitch 40 is in no class of [[36], [38]], yet `toTensor` returns
a tensor; the note leaves no class cell set (it is silently dropped), only
the cleared final column of its step. -/
theorem drums_unknown_pitch_cex :
    pitchToClass [[36], [38]] 40 = none ∧
    DrumsConverter.toTensor ⟨1, [[36], [38]]⟩ [⟨40, 0, 1⟩] = [[0, 0, 0]] := by
  exact ⟨by decide, by decide⟩

theorem drums_unknown_pitch_dropped_witness :
    (∀ n ∈ [(⟨40, 0, 1⟩ : Note)], pitchToClass [[36], [38]] n.pitch = none) ∧
    DrumsConverter.toTensor ⟨1, [[36], [38]]⟩ [⟨40, 0, 1⟩] =
      (List.range 1).map (fun (r : Nat) =>
        List.replicate 2 (0 : Int) ++
          [if ∃ n ∈ [(⟨40, 0, 1⟩ : Note)], n.quantizedStartStep = (r : Int)
            then (0 : Int) else 1]) :=
  ⟨by decide, drums_unknown_pitch_dropped ⟨1, [[36], [38]]⟩ [⟨40, 0, 1⟩] (by decide)⟩

theorem drumRowNotes_map_range (classes : List (List Int)) (s : Nat) (f : Nat → Int) :
    ∀ (m p : Nat), p + m ≤ classes.length →
    drumRowNotes classes s ((List.range' p m).map f) p = .ok
      (((List.range' p m).filter (fun (k : Nat) => decide (f k ≠ 0))).map
        (fun (k : Nat) => ⟨(classes.getD k []).headD 0, (s : Int), (s : Int) + 1⟩)) := by
  intro m
  induction m with
  | zero => intro p hp; rfl
  | succ m ih =>
    intro p hp
    have hrec := ih (p + 1) (by omega)
    have hplt : p < classes.length := by omega
    rw [List.range'_succ, List.map_cons, List.filter_cons]
    by_cases hf : f p = 0
    · rw [if_neg (by simp [hf])]
      simp only [drumRowNotes]
      rw [if_pos hf, hrec]
    · rw [if_pos (by simp [hf])]
      simp only [drumRowNotes]
      rw [if_neg hf, List.getElem?_eq_getElem hplt]
      dsimp only
      rw [hrec, List.map_cons]
      simp [Except.map, List.getD_eq_getElem?_getD, List.getElem?_eq_getElem hplt]

theorem drumRollSteps_ok (classes : List (List Int)) (F : Nat → List Note) :
    ∀ (rows : List (List Int)) (s0 : Nat),
    (∀ (i : Nat) (row : List Int), rows[i]? = some row →
      drumRowNotes classes (s0 + i) row 0 = .ok (F (s0 + i))) →
    drumRollSteps classes rows s0 = .ok ((List.range' s0 rows.length).map F).flatten := by
  intro rows
  induction rows with
  | nil => intro s0 h; rfl
  | cons row rest ih =>
    intro s0 h
    have h0 : drumRowNotes classes s0 row 0 = .ok (F s0) := by
      have := h 0 row (by simp)
      simpa using this
    have hrest : drumRollSteps classes rest (s0 + 1) =
        .ok ((List.range' (s0 + 1) rest.length).map F).flatten := by
      apply ih
      intro i r hi
      have := h (i + 1) r (by simpa using hi)
      rw [show s0 + (i + 1) = s0 + 1 + i from by omega] at this
      exact this
    simp only [drumRollSteps]
    rw [h0, hrest, List.length_cons, List.range'_succ, List.map_cons, List.flatten_cons]
    rfl

/-- C2 (amended): `DrumRollConverter.toNoteSequence` scans every column of
the rows it is given, including a final NOR column if present, so it
round-trips against the encoder only on the drum roll with the NOR column
removed: decoding the tensor of `DrumsConverter.toTensor` with each row
truncated to its classCount class columns succeeds and returns, in step
order and then class order, exactly one note per active (step, class) cell,
each with the first pitch of its class and unit duration.  (Decoding the raw
tensor with the NOR column included instead reads `pitchClasses[classCount]`
at any step with no active class and throws a `TypeError`.) -/
theorem drumroll_stripped_roundtrip (dc : DrumsConverter) (notes : List Note) :
    DrumRollConverter.toNoteSequence dc
        ((dc.toTensor notes).map (fun row => row.take dc.pitchClasses.length)) =
      .ok ((List.range' 0 dc.numSteps).map (fun (r : Nat) =>
        ((List.range' 0 dc.pitchClasses.length).filter (fun (k : Nat) =>
          decide (∃ n ∈ notes, n.quantizedStartStep = (r : Int) ∧
            pitchToClass dc.pitchClasses n.pitch = some k))).map
          (fun (k : Nat) =>
            ⟨(dc.pitchClasses.getD k []).headD 0, (r : Int), (r : Int) + 1⟩))).flatten := by
  obtain ⟨hlen, hchar⟩ := drums_toTensor_char dc notes
  unfold DrumRollConverter.toNoteSequence
  have hmaplen :
      ((dc.toTensor notes).map (fun row => row.take dc.pitchClasses.length)).length =
        dc.numSteps := by
    rw [List.length_map, hlen]
  rw [drumRollSteps_ok dc.pitchClasses
    (fun (r : Nat) =>
      ((List.range' 0 dc.pitchClasses.length).filter (fun (k : Nat) =>
        decide (∃ n ∈ notes, n.quantizedStartStep = (r : Int) ∧
          pitchToClass dc.pitchClasses n.pitch = some k))).map
        (fun (k : Nat) =>
          ⟨(dc.pitchClasses.getD k []).headD 0, (r : Int), (r : Int) + 1⟩))
    _ 0 ?_, hmaplen]
  intro i row hi
  have hilt : i < dc.numSteps := by
    by_contra hge
    rw [List.getElem?_map, List.getElem?_eq_none (by omega)] at hi
    exact Option.noConfusion hi
  rw [List.getElem?_map, hchar i hilt] at hi
  simp only [Option.map_some'] at hi
  have hrow := (Option.some_inj.mp hi).symm
  subst hrow
  rw [List.take_left' (by rw [List.length_map, List.length_range]), List.range_eq_range',
    Nat.zero_add i,
    drumRowNotes_map_range dc.pitchClasses i _ dc.pitchClasses.length 0 (by omega)]
  rw [List.filter_congr (fun k hk => ?_)]
  by_cases hk2 : ∃ n ∈ notes, n.quantizedStartStep = (i : Int) ∧
      pitchToClass dc.pitchClasses n.pitch = some k
  · rw [if_pos hk2]
    simp [hk2]
  · rw [if_neg hk2]
    simp [hk2]

/-- The decode of `DrumRollConverter` does not ignore the final NOR column:
on the raw tensor of the claimed example (pitch classes [[36], [38]],
`numSteps` 2, the single note (38, 1, 2)) the encode yields
[[0, 0, 1], [0, 1, 0]] as claimed, but the raw decode of that roll reads the
set NOR bit of step 0 as class index 2, accesses `pitchClasses[2][0]` on
`undefined`, and throws, instead of returning the note; only the roll with
the final column stripped decodes back to the note. -/
theorem drumroll_raw_decode_cex :
    DrumsConverter.toTensor ⟨2, [[36], [38]]⟩ [⟨38, 1, 2⟩] = [[0, 0, 1], [0, 1, 0]] ∧
    DrumRollConverter.toNoteSequence ⟨2, [[36], [38]]⟩ [[0, 0, 1], [0, 1, 0]] =
      .error "TypeError: Cannot read property '0' of undefined" ∧
    DrumRollConverter.toNoteSequence ⟨2, [[36], [38]]⟩
        ((DrumsConverter.toTensor ⟨2, [[36], [38]]⟩ [⟨38, 1, 2⟩]).map
          (fun row => row.take 2)) = .ok [⟨38, 1, 2⟩] :=
  ⟨rfl, rfl, rfl⟩
